import Mathlib

/-!
# Kerrious47: a model of `src/main.go`

`main.go` encrypts every file under the working directory with a key derived
from a password (`encryptFiles`) and decrypts every `*.enc` file
(`decryptFiles`).  This file embeds both functions in Lean:

* byte strings are lists of `Fin 256`, paths are Lean strings;
* the file system is a map from paths to file contents, and every I/O call
  takes its outcome (success, error, short write) from an explicit record of
  events, so that each error branch of the Go code is reachable in the model;
* `argon2.IDKey`, `chacha20poly1305.New`, `Seal` and `Open` are library
  functions, taken as the fields of a `Crypto` record;
* `filepath.WalkDir` is a library function, taken as the sequence of calls it
  makes to the callback (`Visit`);
* a Go run-time panic is an explicit outcome of the model.

`main` and `getPassword` only choose between the two functions and read the
password; they are not modelled, the password being an argument.

Paths are compared as strings: two different paths are two different files
(no hard links or symbolic links between them).
-/

set_option maxRecDepth 8000

namespace Kerrious47

/-! ## Data -/

abbrev Bytes := List (Fin 256)

/-- Constant `saltSize` of `main.go`, line 17. -/
def saltSize : Nat := 16
/-- Constant `nonceSize` of `main.go`, line 18. -/
def nonceSize : Nat := 12
/-- Constant `keySize` of `main.go`, line 19. -/
def keySize : Nat := 32
/-- Constant `timeCost` of `main.go`, line 20. -/
def timeCost : Nat := 1
/-- Constant `memoryCost` of `main.go`, line 21. -/
def memoryCost : Nat := 64 * 1024
/-- Constant `parallelism` of `main.go`, line 22. -/
def parallelism : Nat := 4

/-- The imported cryptographic primitives.  `idKey` is `argon2.IDKey`
(password, salt, time, memory, threads, key length); `newAEAD key` tells
whether `chacha20poly1305.New(key)` returns without error; `aeadSeal key nonce
plaintext` is `aead.Seal(nil, nonce, plaintext, nil)` for the AEAD built from
`key`; `aeadOpen key nonce ciphertext` is `aead.Open(nil, nonce, ciphertext,
nil)`, `none` standing for its error. -/
structure Crypto where
  idKey : Bytes → Bytes → Nat → Nat → Nat → Nat → Bytes
  newAEAD : Bytes → Bool
  aeadSeal : Bytes → Bytes → Bytes → Bytes
  aeadOpen : Bytes → Bytes → Bytes → Option Bytes

/-- Function `deriveKey` of `main.go`, lines 76-78. -/
def deriveKey (C : Crypto) (password salt : Bytes) : Bytes :=
  C.idKey password salt timeCost memoryCost parallelism keySize

/-! ## Strings and paths -/

/-- Go `strings.HasSuffix`. -/
def hasSuffix (s suffix : String) : Bool :=
  suffix.data.isSuffixOf s.data

/-- Go `strings.TrimSuffix`: `s` without the trailing `suffix` when it has
one, `s` itself otherwise. -/
def trimSuffix (s suffix : String) : String :=
  if hasSuffix s suffix then ⟨s.data.take (s.data.length - suffix.data.length)⟩ else s

/-- First loop of Go `filepath.Base`: drop the trailing separators. -/
def stripTrailingSlashes (p : List Char) : List Char :=
  (p.reverse.dropWhile (fun c => c == '/')).reverse

/-- Second loop of Go `filepath.Base`: what follows the last separator. -/
def lastElement (p : List Char) : List Char :=
  (p.reverse.takeWhile (fun c => c != '/')).reverse

/-- Go `filepath.Base` on a Unix system: the last element of the path, "."
for the empty path and "/" for a path of separators only. -/
def base (path : String) : String :=
  if path = "" then "."
  else
    let e := lastElement (stripTrailingSlashes path.data)
    if e = [] then "/" else ⟨e⟩

/-! ## File system and I/O calls -/

/-- The regular files of the file system: contents by path. -/
abbrev FS := String → Option Bytes

/-- Replace (or, with `none`, delete) the entry of one path. -/
def FS.set (fs : FS) (p : String) (v : Option Bytes) : FS :=
  fun q => if q = p then v else fs q

/-- Go `os.ReadFile`: the contents of the file, `none` when the call returns
an error (the file is absent, or the environment reports `ioErr`). -/
def readFile (fs : FS) (ioErr : Bool) (name : String) : Option Bytes :=
  if ioErr then none else fs name

/-- Go `os.Create`: creates the file or truncates it to length zero; `none`
when the call returns an error, the file system being then unchanged. -/
def create (fs : FS) (ioErr : Bool) (name : String) : Option FS :=
  if ioErr then none else some (fs.set name (some []))

/-- Go `(*os.File).Write` on a file opened by `create` and written
sequentially: the bytes go after what the file already holds.  `short = none`
is a complete write; `short = some n` is a write that returns an error after
at most `n` bytes. The boolean is `true` when the call returns no error. -/
def write (fs : FS) (short : Option Nat) (name : String) (b : Bytes) : FS × Bool :=
  match short with
  | none => (fs.set name (some ((fs name).getD [] ++ b)), true)
  | some n => (fs.set name (some ((fs name).getD [] ++ b.take n)), false)

/-- Go `os.WriteFile`: open with create and truncate, then one write.
`openErr` is a failure to open (nothing changes); `short` is as in `write`. -/
def writeFile (fs : FS) (openErr : Bool) (short : Option Nat) (name : String)
    (data : Bytes) : FS × Bool :=
  if openErr then (fs, false)
  else
    match short with
    | none => (fs.set name (some data), true)
    | some n => (fs.set name (some (data.take n)), false)

/-- Go `os.Remove`: `none` when the call returns an error (the environment
reports `ioErr`, or there is no such file). -/
def remove (fs : FS) (ioErr : Bool) (name : String) : Option FS :=
  if ioErr then none
  else
    match fs name with
    | none => none
    | some _ => some (fs.set name none)

/-! ## Go slices -/

/-- A Go byte slice: `arr` holds the elements from the start of the slice to
its capacity, `len` is its length. -/
structure Slice where
  arr : Bytes
  len : Nat

/-- Capacity of a slice, Go `cap(s)`. -/
def Slice.cap (s : Slice) : Nat := s.arr.length

/-- The `len` elements of the slice. -/
def Slice.toBytes (s : Slice) : Bytes := s.arr.take s.len

/-- Go slice expression `s[:hi]`: in range when `hi ≤ cap(s)`, `none` is the
run-time panic "slice bounds out of range". -/
def Slice.sliceTo (s : Slice) (hi : Nat) : Option Slice :=
  if hi ≤ s.cap then some ⟨s.arr, hi⟩ else none

/-- Go slice expression `s[lo:hi]`: in range when `lo ≤ hi ≤ cap(s)`. -/
def Slice.sliceRange (s : Slice) (lo hi : Nat) : Option Slice :=
  if lo ≤ hi ∧ hi ≤ s.cap then some ⟨s.arr.drop lo, hi - lo⟩ else none

/-- Go slice expression `s[lo:]`, that is `s[lo:len(s)]`: in range when
`lo ≤ len(s)`. -/
def Slice.sliceFrom (s : Slice) (lo : Nat) : Option Slice :=
  if lo ≤ s.len then some ⟨s.arr.drop lo, s.len - lo⟩ else none

/-- The slice `os.ReadFile` returns for a file of contents `data`: its length
is the file's, its capacity may be larger (`spare` is the unused rest of the
buffer). -/
def readBuffer (data spare : Bytes) : Slice :=
  ⟨data ++ spare, data.length⟩

/-! ## Output lines -/

/-- The lines `main.go` prints, one constructor per `Printf`/`Println`
format, with the path it names. -/
inductive Msg where
  | errExecutable
  | errAccess (path : String)
  | errSalt (file : String)
  | errAEAD (file : String)
  | errNonce (file : String)
  | errRead (file : String)
  | errCreate (file : String)
  | errWriteSalt (file : String)
  | errWriteNonce (file : String)
  | errWriteCiphertext (file : String)
  | errDelete (file : String)
  | encrypted (file : String)
  | errReadEncrypted (file : String)
  | errDecrypt (file : String)
  | errWriteDecrypted (decryptedFile : String)
  | errDeleteEncrypted (file : String)
  | decrypted (file : String)
  deriving DecidableEq, Repr

/-- The file a line printed by the loop of `encryptFiles` is about; `none`
for the lines printed before the loop. -/
def Msg.encFile : Msg → Option String
  | .errSalt f => some f
  | .errAEAD f => some f
  | .errNonce f => some f
  | .errRead f => some f
  | .errCreate f => some f
  | .errWriteSalt f => some f
  | .errWriteNonce f => some f
  | .errWriteCiphertext f => some f
  | .errDelete f => some f
  | .encrypted f => some f
  | _ => none

/-- Result of a run: the file system it leaves, the lines it printed, and
whether it ended in a run-time panic. -/
structure Run where
  fs : FS
  log : List Msg
  crashed : Bool

/-! ## Directory walk -/

/-- One call of `filepath.WalkDir` to its callback: the path, whether the
entry is a directory (`d.IsDir()`), and whether the call carries an error. -/
structure Visit where
  path : String
  isDir : Bool
  err : Bool
  deriving DecidableEq, Repr

/-- The callback of `encryptFiles` (lines 90-101) run over the calls of the
walk: the list `files` it builds and the lines it prints. -/
def encryptWalk (executableName : String) : List Visit → List String × List Msg
  | [] => ([], [])
  | v :: vs =>
    let r := encryptWalk executableName vs
    if v.err then (r.1, Msg.errAccess v.path :: r.2)
    else if !v.isDir && base v.path != executableName && !hasSuffix v.path ".enc" then
      (v.path :: r.1, r.2)
    else r

/-- The callback of `decryptFiles` (lines 173-184) run over the calls of the
walk. -/
def decryptWalk : List Visit → List String × List Msg
  | [] => ([], [])
  | v :: vs =>
    let r := decryptWalk vs
    if v.err then (r.1, Msg.errAccess v.path :: r.2)
    else if !v.isDir && hasSuffix v.path ".enc" then (v.path :: r.1, r.2)
    else r

/-! ## Encryption -/

/-- What the environment does while one file is encrypted: the salt and the
nonce `rand.Read` draws (`none`: it returns an error), and the outcome of each
I/O call. -/
structure EncEvents where
  salt : Option {b : Bytes // b.length = saltSize}
  nonce : Option {b : Bytes // b.length = nonceSize}
  readErr : Bool
  createErr : Bool
  writeSalt : Option Nat
  writeNonce : Option Nat
  writeCiphertext : Option Nat
  removeErr : Bool

/-- Body of the loop of `encryptFiles`, lines 114-167, for one file that
passed the test of line 110: the file system it leaves and the line it
prints. The deferred `Close` of line 147 does not change any contents. -/
def encryptOne (C : Crypto) (password : Bytes) (ev : EncEvents) (fs : FS)
    (file : String) : FS × Msg :=
  match ev.salt with
  | none => (fs, Msg.errSalt file)
  | some salt =>
    let key := deriveKey C password salt.val
    if C.newAEAD key = false then (fs, Msg.errAEAD file)
    else
      match ev.nonce with
      | none => (fs, Msg.errNonce file)
      | some nonce =>
        match readFile fs ev.readErr file with
        | none => (fs, Msg.errRead file)
        | some plaintext =>
          let ciphertext := C.aeadSeal key nonce.val plaintext
          match create fs ev.createErr (file ++ ".enc") with
          | none => (fs, Msg.errCreate file)
          | some fs1 =>
            match write fs1 ev.writeSalt (file ++ ".enc") salt.val with
            | (fs2, false) => (fs2, Msg.errWriteSalt file)
            | (fs2, true) =>
              match write fs2 ev.writeNonce (file ++ ".enc") nonce.val with
              | (fs3, false) => (fs3, Msg.errWriteNonce file)
              | (fs3, true) =>
                match write fs3 ev.writeCiphertext (file ++ ".enc") ciphertext with
                | (fs4, false) => (fs4, Msg.errWriteCiphertext file)
                | (fs4, true) =>
                  match remove fs4 ev.removeErr file with
                  | none => (fs4, Msg.errDelete file)
                  | some fs5 => (fs5, Msg.encrypted file)

/-- Loop of `encryptFiles`, lines 108-168. `env file` is what the environment
does while `file` is processed. -/
def encryptLoop (C : Crypto) (password : Bytes) (executableName : String)
    (env : String → EncEvents) : List String → FS → Run
  | [], fs => ⟨fs, [], false⟩
  | file :: rest, fs =>
    if file = executableName ∨ hasSuffix file ".enc" = true then
      encryptLoop C password executableName env rest fs
    else
      let r := encryptOne C password (env file) fs file
      let run := encryptLoop C password executableName env rest r.1
      ⟨run.fs, r.2 :: run.log, run.crashed⟩

/-- Function `encryptFiles` of `main.go`, lines 80-169. `executable` is the
result of `os.Executable()` (`none`: an error), `visits` the calls of
`filepath.WalkDir(".")` to the callback. The callback always returns `nil`,
so `WalkDir` returns `nil` and line 103 never takes its error branch. -/
def encryptFiles (C : Crypto) (password : Bytes) (executable : Option String)
    (visits : List Visit) (env : String → EncEvents) (fs : FS) : Run :=
  match executable with
  | none => ⟨fs, [Msg.errExecutable], false⟩
  | some executablePath =>
    let executableName := base executablePath
    let w := encryptWalk executableName visits
    let run := encryptLoop C password executableName env w.1 fs
    ⟨run.fs, w.2 ++ run.log, run.crashed⟩

/-! ## Decryption -/

/-- What the environment does while one file is decrypted: the outcome of
each I/O call, and the unused capacity of the buffer `os.ReadFile` returns. -/
structure DecEvents where
  readErr : Bool
  spare : Bytes
  openErr : Bool
  writeShort : Option Nat
  removeErr : Bool

/-- Lines 198-200 of `main.go`: the three slice expressions that cut the
envelope into salt, nonce and ciphertext; `none` when one of them panics. -/
def splitEnvelope (encryptedData : Slice) : Option (Slice × Slice × Slice) :=
  match encryptedData.sliceTo saltSize with
  | none => none
  | some salt =>
    match encryptedData.sliceRange saltSize (saltSize + nonceSize) with
    | none => none
    | some nonce =>
      match encryptedData.sliceFrom (saltSize + nonceSize) with
      | none => none
      | some ciphertext => some (salt, nonce, ciphertext)

/-- Body of the loop of `decryptFiles`, lines 192-227, for one file: the file
system it leaves and the line it prints, or `none` when it panics. -/
def decryptOne (C : Crypto) (password : Bytes) (ev : DecEvents) (fs : FS)
    (file : String) : Option (FS × Msg) :=
  match readFile fs ev.readErr file with
  | none => some (fs, Msg.errReadEncrypted file)
  | some data =>
    match splitEnvelope (readBuffer data ev.spare) with
    | none => none
    | some (salt, nonce, ciphertext) =>
      let key := deriveKey C password salt.toBytes
      if C.newAEAD key = false then some (fs, Msg.errAEAD file)
      else
        match C.aeadOpen key nonce.toBytes ciphertext.toBytes with
        | none => some (fs, Msg.errDecrypt file)
        | some plaintext =>
          let decryptedFile := trimSuffix file ".enc"
          match writeFile fs ev.openErr ev.writeShort decryptedFile plaintext with
          | (fs1, false) => some (fs1, Msg.errWriteDecrypted decryptedFile)
          | (fs1, true) =>
            match remove fs1 ev.removeErr file with
            | none => some (fs1, Msg.errDeleteEncrypted file)
            | some fs2 => some (fs2, Msg.decrypted file)

/-- Loop of `decryptFiles`, lines 191-228. A panic in the body ends the
run. -/
def decryptLoop (C : Crypto) (password : Bytes) (env : String → DecEvents) :
    List String → FS → Run
  | [], fs => ⟨fs, [], false⟩
  | file :: rest, fs =>
    match decryptOne C password (env file) fs file with
    | none => ⟨fs, [], true⟩
    | some r =>
      let run := decryptLoop C password env rest r.1
      ⟨run.fs, r.2 :: run.log, run.crashed⟩

/-- Function `decryptFiles` of `main.go`, lines 171-229. -/
def decryptFiles (C : Crypto) (password : Bytes) (visits : List Visit)
    (env : String → DecEvents) (fs : FS) : Run :=
  let w := decryptWalk visits
  let run := decryptLoop C password env w.1 fs
  ⟨run.fs, w.2 ++ run.log, run.crashed⟩

/-! ## The envelope and the outcomes of the two loop bodies -/

/-- The envelope of the data model: salt, nonce and sealed plaintext, in
that order. -/
def envelope (C : Crypto) (password salt nonce plaintext : Bytes) : Bytes :=
  salt ++ nonce ++ C.aeadSeal (deriveKey C password salt) nonce plaintext

/-- The possible results `r` of the body of the encryption loop on file `p`:
nothing changed; or the `.enc` file holds the beginning of the envelope and a
write failed; or the envelope is complete and the original could not be
removed; or the envelope is complete and the original is removed. -/
def EncPost (C : Crypto) (W : Bytes) (ev : EncEvents) (fs : FS) (p : String)
    (r : FS × Msg) : Prop :=
  (r.1 = fs ∧
    r.2 ∈ [Msg.errSalt p, Msg.errAEAD p, Msg.errNonce p, Msg.errRead p, Msg.errCreate p]) ∨
  (∃ s n P, ev.salt = some s ∧ ev.nonce = some n ∧ fs p = some P ∧
    C.newAEAD (deriveKey C W s.val) = true ∧ ev.readErr = false ∧ ev.createErr = false ∧
    ((∃ e, e <+: envelope C W s.val n.val P ∧
        r.1 = fs.set (p ++ ".enc") (some e) ∧
        r.2 ∈ [Msg.errWriteSalt p, Msg.errWriteNonce p, Msg.errWriteCiphertext p]) ∨
     (ev.writeSalt = none ∧ ev.writeNonce = none ∧ ev.writeCiphertext = none ∧
        ((r.1 = fs.set (p ++ ".enc") (some (envelope C W s.val n.val P)) ∧
            r.2 = Msg.errDelete p) ∨
         (r.1 = (fs.set (p ++ ".enc") (some (envelope C W s.val n.val P))).set p none ∧
            r.2 = Msg.encrypted p ∧ ev.removeErr = false)))))

/-- The possible results of the decryption body on file `q` when it does not
panic. -/
def DecPost (fs : FS) (q : String) (r : FS × Msg) : Prop :=
  (r.1 = fs ∧ r.2 ∈ [Msg.errReadEncrypted q, Msg.errAEAD q, Msg.errDecrypt q,
      Msg.errWriteDecrypted (trimSuffix q ".enc")]) ∨
  (∃ P : Bytes, ∃ k : Nat, r.1 = fs.set (trimSuffix q ".enc") (some (P.take k)) ∧
      r.2 = Msg.errWriteDecrypted (trimSuffix q ".enc")) ∨
  (∃ P : Bytes, r.1 = fs.set (trimSuffix q ".enc") (some P) ∧ r.2 = Msg.errDeleteEncrypted q) ∨
  (∃ P : Bytes, r.1 = (fs.set (trimSuffix q ".enc") (some P)).set q none ∧ r.2 = Msg.decrypted q)

/-! ## Concrete inputs -/

/-- The bytes of an ASCII string. -/
def asciiBytes (s : String) : Bytes :=
  s.data.map (fun c => Fin.ofNat c.toNat)

/-- Tag of the sample AEAD: sixteen bytes computed from key and nonce. -/
def sampleTag (key nonce : Bytes) : Bytes :=
  ((key ++ nonce) ++ List.replicate 16 0).take 16

/-- A stand-in for the cryptographic library on which the model can be
evaluated: the key is the first `keyLen` bytes of password and salt, sealing
appends a sixteen-byte tag, opening checks and removes it. It has the shape of
the real primitives (key length, tag length, `aeadOpen` inverse to
`aeadSeal`), not their secrecy. -/
def sampleCrypto : Crypto where
  idKey password salt _ _ _ keyLen := ((password ++ salt) ++ List.replicate keyLen 0).take keyLen
  newAEAD key := key.length == 32
  aeadSeal key nonce plaintext := plaintext ++ sampleTag key nonce
  aeadOpen key nonce ciphertext :=
    if 16 ≤ ciphertext.length ∧ ciphertext.drop (ciphertext.length - 16) = sampleTag key nonce then
      some (ciphertext.take (ciphertext.length - 16))
    else none

/-- A salt for the examples. -/
def sampleSalt : {b : Bytes // b.length = saltSize} :=
  ⟨[1, 2, 3, 4, 5, 6, 7, 8, 9, 10, 11, 12, 13, 14, 15, 16], by decide⟩

/-- A nonce for the examples. -/
def sampleNonce : {b : Bytes // b.length = nonceSize} :=
  ⟨[101, 102, 103, 104, 105, 106, 107, 108, 109, 110, 111, 112], by decide⟩

/-- Events of an encryption in which every call succeeds. -/
def encOk (salt : {b : Bytes // b.length = saltSize})
    (nonce : {b : Bytes // b.length = nonceSize}) : EncEvents :=
  ⟨some salt, some nonce, false, false, none, none, none, false⟩

/-- Events of a decryption in which every I/O call succeeds. -/
def decOk (spare : Bytes) : DecEvents :=
  ⟨false, spare, false, none, false⟩

/-- A file system holding the single file `name`. -/
def singleFile (name : String) (data : Bytes) : FS :=
  fun q => if q = name then some data else none

/-- Events of an encryption in which creating the `.enc` file fails. -/
def encCreateFails : EncEvents :=
  ⟨some sampleSalt, some sampleNonce, false, true, none, none, none, false⟩

/-- Events of an encryption in which the ciphertext write stops with an
error after two bytes. -/
def encShortWrite : EncEvents :=
  ⟨some sampleSalt, some sampleNonce, false, false, none, none, some 2, false⟩

/-- A directory with a 3-byte file "short.enc" and a well-formed envelope
"valid.enc". -/
def shortTree : List Visit :=
  [⟨".", true, false⟩, ⟨"short.enc", false, false⟩, ⟨"valid.enc", false, false⟩]

/-- The files of `shortTree`; "valid.enc" is the envelope of the one-byte
plaintext `[42]` under the password "pw". -/
def shortFS : FS :=
  fun q =>
    if q = "short.enc" then some [1, 2, 3]
    else if q = "valid.enc" then
      some (envelope sampleCrypto (asciiBytes "pw") sampleSalt.val sampleNonce.val [42])
    else none

/-- A directory whose executable "tool" has a namesake in a subdirectory. -/
def toolTree : List Visit :=
  [⟨".", true, false⟩, ⟨"notes.txt", false, false⟩, ⟨"old.enc", false, false⟩,
    ⟨"sub", true, false⟩, ⟨"sub/tool", false, false⟩, ⟨"tool", false, false⟩]

/-- The files of `toolTree`. -/
def toolFS : FS :=
  fun q =>
    if q = "notes.txt" then some [1]
    else if q = "old.enc" then some [2]
    else if q = "sub/tool" then some [3, 4, 5]
    else if q = "tool" then some [6]
    else none

/-- A directory with the file "notes.txt" and a 30-byte file "junk.enc" that
is no envelope. -/
def roundTree : List Visit :=
  [⟨".", true, false⟩, ⟨"junk.enc", false, false⟩, ⟨"notes.txt", false, false⟩]

/-- The walk of the directory of `roundTree` once "notes.txt" is encrypted. -/
def roundTreeEnc : List Visit :=
  [⟨".", true, false⟩, ⟨"junk.enc", false, false⟩, ⟨"notes.txt.enc", false, false⟩]

/-- The files of `roundTree`. -/
def roundFS : FS :=
  fun q =>
    if q = "junk.enc" then some (List.replicate 30 7)
    else if q = "notes.txt" then some [1, 2, 3]
    else none

/-- The directory of `roundTree` with one more file, the 1-byte "tiny.enc",
as the walk finds it once "notes.txt" is encrypted. -/
def roundTreeEncTiny : List Visit :=
  [⟨".", true, false⟩, ⟨"junk.enc", false, false⟩, ⟨"notes.txt.enc", false, false⟩,
    ⟨"tiny.enc", false, false⟩]

/-- The directory of `roundTree` with one more file, the 1-byte "tiny.enc". -/
def roundTreeTiny : List Visit :=
  [⟨".", true, false⟩, ⟨"junk.enc", false, false⟩, ⟨"notes.txt", false, false⟩,
    ⟨"tiny.enc", false, false⟩]

/-- The files of `roundTreeTiny`. -/
def roundFSTiny : FS :=
  fun q => if q = "tiny.enc" then some [9] else roundFS q

/-! ## Lemmas on strings and paths -/

theorem hasSuffix_iff (s t : String) : hasSuffix s t = true ↔ t.data <:+ s.data := by
  simp [hasSuffix]

theorem hasSuffix_append (p s : String) : hasSuffix (p ++ s) s = true := by
  simp [hasSuffix]

theorem append_enc_hasSuffix (g : String) : hasSuffix (g ++ ".enc") ".enc" = true :=
  hasSuffix_append g ".enc"

theorem trimSuffix_append (p s : String) : trimSuffix (p ++ s) s = p := by
  simp [trimSuffix, hasSuffix_append]

theorem trimSuffix_append_self (q s : String) (h : hasSuffix q s = true) :
    trimSuffix q s ++ s = q := by
  have h2 := (hasSuffix_iff q s).1 h
  have h3 := List.suffix_iff_eq_append.1 h2
  simp only [trimSuffix, h, if_true]
  apply String.ext
  simpa using h3

theorem append_ne_self (p s : String) (hs : s ≠ "") : p ++ s ≠ p := by
  intro h
  have h1 := congrArg String.data h
  simp at h1
  exact hs (String.ext h1)

theorem enc_ne_self (p : String) : p ++ ".enc" ≠ p :=
  append_ne_self p ".enc" (by decide)

theorem append_enc_inj (g p : String) (h : g ++ ".enc" = p ++ ".enc") : g = p := by
  have h1 := congrArg String.data h
  simp only [String.data_append] at h1
  exact String.ext (List.append_cancel_right h1)

theorem lastElement_no_slash (l : List Char) : ∀ c ∈ lastElement l, (c != '/') = true := by
  intro c hc
  unfold lastElement at hc
  rw [List.mem_reverse] at hc
  have h := List.mem_takeWhile_imp (p := fun c => c != '/') hc
  exact h

theorem base_of_no_slash (e : List Char) (hne : e ≠ []) (h : ∀ c ∈ e, (c != '/') = true) :
    base ⟨e⟩ = ⟨e⟩ := by
  have h0 : (⟨e⟩ : String) ≠ "" := by
    intro h1
    exact hne (congrArg String.data h1)
  have h1 : stripTrailingSlashes e = e := by
    unfold stripTrailingSlashes
    have : e.reverse.dropWhile (fun c => c == '/') = e.reverse := by
      rw [List.dropWhile_eq_self_iff]
      intro hl
      have hm : e.reverse.get ⟨0, hl⟩ ∈ e := List.mem_reverse.1 (List.get_mem _ _ _)
      have := h _ hm
      simpa using this
    rw [this, List.reverse_reverse]
  have h2 : lastElement e = e := by
    unfold lastElement
    have : e.reverse.takeWhile (fun c => c != '/') = e.reverse := by
      rw [List.takeWhile_eq_self_iff]
      intro c hc
      exact h c (List.mem_reverse.1 hc)
    rw [this, List.reverse_reverse]
  unfold base
  simp only [h0, if_false, h1, h2, hne]

theorem base_base (p : String) : base (base p) = base p := by
  unfold base
  by_cases h0 : p = ""
  · simp only [h0, if_true]; decide
  · simp only [h0, if_false]
    by_cases h1 : lastElement (stripTrailingSlashes p.data) = []
    · simp only [h1, if_true]; decide
    · simp only [h1, if_false]
      exact base_of_no_slash _ h1 (lastElement_no_slash _)

theorem takeWhile_append_stop {α : Type} (f : α → Bool) (l r : List α) (a : α)
    (ha : f a = false) : (l ++ a :: r).takeWhile f = l.takeWhile f := by
  induction l with
  | nil => simp [List.takeWhile, ha]
  | cons x xs ih =>
    by_cases hx : f x = true
    · simp [List.takeWhile, hx, ih]
    · simp [List.takeWhile, hx]

theorem dropWhile_append_nonempty {α : Type} (f : α → Bool) (l r : List α)
    (h : l.dropWhile f ≠ []) : (l ++ r).dropWhile f = l.dropWhile f ++ r := by
  induction l with
  | nil => simp at h
  | cons x xs ih =>
    by_cases hx : f x = true
    · simp only [List.cons_append, List.dropWhile_cons, hx, if_true] at h ⊢
      exact ih h
    · simp [List.dropWhile, hx]

theorem lastElement_append_slash (d t : List Char) :
    lastElement (d ++ '/' :: t) = lastElement t := by
  unfold lastElement
  rw [List.reverse_append, List.reverse_cons, List.append_assoc, List.singleton_append,
    takeWhile_append_stop _ _ _ _ (by decide)]

/-- The last element of `dir/p` is the last element of `p`, when `p` is not
empty and not made of separators only. -/
theorem base_join (dir p : String) (h : stripTrailingSlashes p.data ≠ []) :
    base (dir ++ "/" ++ p) = base p := by
  have hp : p ≠ "" := by
    rintro rfl
    exact h (by decide)
  have hfull : dir ++ "/" ++ p ≠ "" := by
    intro h1
    have h2 := congrArg String.data h1
    have h3 : ("/" : String).data = ['/'] := rfl
    simp [h3] at h2
  have hD : p.data.reverse.dropWhile (fun c => c == '/') ≠ [] := by
    intro h1
    apply h
    unfold stripTrailingSlashes
    rw [h1]
    rfl
  have e1 : stripTrailingSlashes (dir ++ "/" ++ p).data =
      dir.data ++ '/' :: stripTrailingSlashes p.data := by
    have h3 : ("/" : String).data = ['/'] := rfl
    unfold stripTrailingSlashes
    rw [String.data_append, String.data_append, h3, List.reverse_append,
      dropWhile_append_nonempty _ _ _ hD, List.reverse_append, List.reverse_reverse]
    simp
  unfold base
  simp only [hp, hfull, if_false, e1, lastElement_append_slash]

/-! ## Lemmas on the file system -/

@[simp] theorem FS.set_same (fs : FS) (p : String) (v : Option Bytes) : (fs.set p v) p = v := by
  simp [FS.set]

theorem FS.set_other (fs : FS) (p q : String) (v : Option Bytes) (h : q ≠ p) :
    (fs.set p v) q = fs q := by
  simp [FS.set, h]

@[simp] theorem FS.set_set (fs : FS) (p : String) (a b : Option Bytes) :
    (fs.set p a).set p b = fs.set p b := by
  funext q
  by_cases h : q = p <;> simp [FS.set, h]

theorem readFile_eq_some {fs : FS} {ioErr : Bool} {p : String} {P : Bytes}
    (h : readFile fs ioErr p = some P) : ioErr = false ∧ fs p = some P := by
  unfold readFile at h
  cases ioErr <;> simp_all

theorem create_eq_some {fs fs1 : FS} {ioErr : Bool} {p : String}
    (h : create fs ioErr p = some fs1) : ioErr = false ∧ fs1 = fs.set p (some []) := by
  unfold create at h
  cases ioErr <;> simp_all

theorem remove_eq_some {fs fs1 : FS} {ioErr : Bool} {p : String}
    (h : remove fs ioErr p = some fs1) : ioErr = false ∧ fs1 = fs.set p none := by
  unfold remove at h
  cases ioErr <;> cases hp : fs p <;> simp_all

/-! ## The body of the encryption loop -/

/-- Every way the body of the encryption loop can end. -/
theorem encryptOne_outcome (C : Crypto) (W : Bytes) (ev : EncEvents) (fs : FS) (p : String) :
    EncPost C W ev fs p (encryptOne C W ev fs p) := by
  unfold encryptOne
  cases hs : ev.salt with
  | none => exact Or.inl ⟨rfl, by simp⟩
  | some s =>
    by_cases hnew : C.newAEAD (deriveKey C W s.val) = false
    · simp only [hnew, if_true]; exact Or.inl ⟨rfl, by simp⟩
    simp only [hnew, if_false]
    cases hn : ev.nonce with
    | none => exact Or.inl ⟨rfl, by simp⟩
    | some n =>
      cases hr : readFile fs ev.readErr p with
      | none => exact Or.inl ⟨rfl, by simp⟩
      | some P =>
        obtain ⟨hre, hP⟩ := readFile_eq_some hr
        cases hc : create fs ev.createErr (p ++ ".enc") with
        | none => exact Or.inl ⟨rfl, by simp⟩
        | some fs1 =>
          obtain ⟨hce, rfl⟩ := create_eq_some hc
          refine Or.inr ⟨s, n, P, hs, hn, hP, by simpa using hnew, hre, hce, ?_⟩
          unfold envelope
          cases hws : ev.writeSalt with
          | some k =>
            refine Or.inl ⟨s.val.take k, ?_, by simp [write], by simp [write]⟩
            exact (List.take_prefix k s.val).trans
              ⟨n.val ++ C.aeadSeal (deriveKey C W s.val) n.val P, by simp⟩
          | none =>
            cases hwn : ev.writeNonce with
            | some k =>
              refine Or.inl ⟨s.val ++ n.val.take k, ?_, by simp [write], by simp [write]⟩
              obtain ⟨t, ht⟩ := List.take_prefix k n.val
              refine ⟨t ++ C.aeadSeal (deriveKey C W s.val) n.val P, ?_⟩
              rw [← List.append_assoc, List.append_assoc s.val, ht]
            | none =>
              cases hwc : ev.writeCiphertext with
              | some k =>
                refine Or.inl ⟨s.val ++ n.val ++ (C.aeadSeal (deriveKey C W s.val) n.val P).take k,
                  ?_, by simp [write], by simp [write]⟩
                obtain ⟨t, ht⟩ := List.take_prefix k (C.aeadSeal (deriveKey C W s.val) n.val P)
                exact ⟨t, by rw [List.append_assoc, ht]⟩
              | none =>
                simp only [write, FS.set_same, FS.set_set, Option.getD_some, List.nil_append]
                cases hrm : remove (fs.set (p ++ ".enc")
                    (some (s.val ++ n.val ++ C.aeadSeal (deriveKey C W s.val) n.val P)))
                    ev.removeErr p with
                | none => exact Or.inr ⟨trivial, trivial, trivial, Or.inl ⟨rfl, rfl⟩⟩
                | some fs5 =>
                  obtain ⟨hrme, rfl⟩ := remove_eq_some hrm
                  exact Or.inr ⟨trivial, trivial, trivial, Or.inr ⟨rfl, rfl, hrme⟩⟩

theorem encryptOne_ok (C : Crypto) (W : Bytes) (s : {b : Bytes // b.length = saltSize})
    (n : {b : Bytes // b.length = nonceSize}) (P : Bytes) (fs : FS) (p : String)
    (hnew : C.newAEAD (deriveKey C W s.val) = true) (hfile : fs p = some P) :
    encryptOne C W (encOk s n) fs p =
      ((fs.set (p ++ ".enc") (some (envelope C W s.val n.val P))).set p none, Msg.encrypted p) := by
  have hne : p ≠ p ++ ".enc" := fun h => enc_ne_self p h.symm
  simp [encryptOne, encOk, readFile, create, write, remove, hnew, hfile, envelope,
    FS.set_other _ _ _ _ hne]

theorem encryptOne_encrypted_events (C : Crypto) (W : Bytes) (ev : EncEvents) (fs : FS)
    (p : String) (hok : (encryptOne C W ev fs p).2 = Msg.encrypted p) :
    ∃ s n P, ev = encOk s n ∧ C.newAEAD (deriveKey C W s.val) = true ∧ fs p = some P := by
  rcases encryptOne_outcome C W ev fs p with ⟨_, hm⟩ | ⟨s, n, P, hs, hn, hP, hnew, hre, hce, h⟩
  · rw [hok] at hm; simp at hm
  · refine ⟨s, n, P, ?_, hnew, hP⟩
    rcases h with ⟨e, _, _, hm⟩ | ⟨h1, h2, h3, ⟨_, hm⟩ | ⟨_, _, hrm⟩⟩
    · rw [hok] at hm; simp at hm
    · rw [hok] at hm; simp at hm
    · cases ev
      simp only at hs hn hre hce h1 h2 h3 hrm
      simp only [encOk, hs, hn, hre, hce, h1, h2, h3, hrm]

/-- When the encryption body fails to remove the original, the envelope is
complete and the original is still there. -/
theorem encryptOne_errDelete (C : Crypto) (W : Bytes) (ev : EncEvents) (fs : FS) (p : String)
    (hok : (encryptOne C W ev fs p).2 = Msg.errDelete p) :
    ∃ s n P, ev.salt = some s ∧ ev.nonce = some n ∧ fs p = some P ∧
      (encryptOne C W ev fs p).1 = fs.set (p ++ ".enc") (some (envelope C W s.val n.val P)) := by
  rcases encryptOne_outcome C W ev fs p with ⟨_, hm⟩ | ⟨s, n, P, hs, hn, hP, _, _, _, h⟩
  · rw [hok] at hm; simp at hm
  · refine ⟨s, n, P, hs, hn, hP, ?_⟩
    rcases h with ⟨e, _, _, hm⟩ | ⟨_, _, _, ⟨h1, _⟩ | ⟨_, hm, _⟩⟩
    · rw [hok] at hm; simp at hm
    · exact h1
    · rw [hok] at hm; simp at hm

theorem encryptOne_absent (C : Crypto) (W : Bytes) (ev : EncEvents) (fs : FS) (p : String)
    (h : fs p = none) : (encryptOne C W ev fs p).1 = fs := by
  rcases encryptOne_outcome C W ev fs p with ⟨h1, _⟩ | ⟨s, n, P, _, _, hP, _⟩
  · exact h1
  · rw [h] at hP; cases hP

theorem encryptOne_frame (C : Crypto) (W : Bytes) (ev : EncEvents) (fs : FS) (p x : String)
    (h1 : x ≠ p) (h2 : x ≠ p ++ ".enc") : (encryptOne C W ev fs p).1 x = fs x := by
  rcases encryptOne_outcome C W ev fs p with ⟨h, _⟩ | ⟨s, n, P, _, _, _, _, _, _, h⟩
  · rw [h]
  · rcases h with ⟨e, _, h, _⟩ | ⟨_, _, _, ⟨h, _⟩ | ⟨h, _⟩⟩
    · rw [h, FS.set_other _ _ _ _ h2]
    · rw [h, FS.set_other _ _ _ _ h2]
    · rw [h, FS.set_other _ _ _ _ h1, FS.set_other _ _ _ _ h2]

theorem encryptOne_encFile (C : Crypto) (W : Bytes) (ev : EncEvents) (fs : FS) (p : String) :
    (encryptOne C W ev fs p).2.encFile = some p := by
  rcases encryptOne_outcome C W ev fs p with ⟨_, h⟩ | ⟨s, n, P, _, _, _, _, _, _, h⟩
  · simp only [List.mem_cons, List.mem_singleton, List.not_mem_nil, or_false] at h
    rcases h with h | h | h | h | h <;> rw [h] <;> rfl
  · rcases h with ⟨e, _, _, h⟩ | ⟨_, _, _, ⟨_, h⟩ | ⟨_, h, _⟩⟩
    · simp only [List.mem_cons, List.mem_singleton, List.not_mem_nil, or_false] at h
      rcases h with h | h | h <;> rw [h] <;> rfl
    · rw [h]; rfl
    · rw [h]; rfl

theorem encryptOne_fail_keeps (C : Crypto) (W : Bytes) (ev : EncEvents) (fs : FS) (p : String)
    (hfail : ev.salt = none ∨
      (∃ s, ev.salt = some s ∧ C.newAEAD (deriveKey C W s.val) = false) ∨
      ev.nonce = none ∨ readFile fs ev.readErr p = none ∨
      ev.createErr = true ∨ ev.writeSalt ≠ none ∨
      ev.writeNonce ≠ none ∨ ev.writeCiphertext ≠ none) :
    (encryptOne C W ev fs p).1 p = fs p ∧
    (encryptOne C W ev fs p).2 ∈
      [Msg.errSalt p, Msg.errAEAD p, Msg.errNonce p, Msg.errRead p,
        Msg.errCreate p, Msg.errWriteSalt p, Msg.errWriteNonce p,
        Msg.errWriteCiphertext p] := by
  have hne : p ≠ p ++ ".enc" := fun h => enc_ne_self p h.symm
  rcases encryptOne_outcome C W ev fs p with
    ⟨h, hm⟩ | ⟨s, n, P, hs, hn, hP, hnew, hre, hce, h⟩
  · refine ⟨by rw [h], ?_⟩
    simp only [List.mem_cons, List.mem_singleton, List.not_mem_nil, or_false] at hm ⊢
    rcases hm with h | h | h | h | h <;> simp [h]
  · rcases h with ⟨e, _, h, hm⟩ | ⟨h1, h2, h3, _⟩
    · refine ⟨by rw [h, FS.set_other _ _ _ _ hne], ?_⟩
      simp only [List.mem_cons, List.mem_singleton, List.not_mem_nil, or_false] at hm ⊢
      rcases hm with h | h | h <;> simp [h]
    · exfalso
      rcases hfail with h | ⟨s', hs', h⟩ | h | h | h | h | h | h
      · rw [hs] at h; cases h
      · rw [hs] at hs'; cases hs'; rw [hnew] at h; cases h
      · rw [hn] at h; cases h
      · simp [readFile, hre, hP] at h
      · rw [hce] at h; cases h
      · exact h h1
      · exact h h2
      · exact h h3

theorem envelope_min_length (C : Crypto) (W : Bytes) (s : {b : Bytes // b.length = saltSize})
    (n : {b : Bytes // b.length = nonceSize}) (P : Bytes) :
    saltSize + nonceSize ≤ (envelope C W s.val n.val P).length := by
  simp [envelope, s.2, n.2]

theorem envelope_take (C : Crypto) (W : Bytes) (s : {b : Bytes // b.length = saltSize})
    (n : {b : Bytes // b.length = nonceSize}) (P : Bytes) :
    (envelope C W s.val n.val P).take saltSize = s.val := by
  unfold envelope
  rw [List.append_assoc]
  exact List.take_left' s.2

theorem envelope_drop_take (C : Crypto) (W : Bytes) (s : {b : Bytes // b.length = saltSize})
    (n : {b : Bytes // b.length = nonceSize}) (P : Bytes) :
    ((envelope C W s.val n.val P).drop saltSize).take nonceSize = n.val := by
  unfold envelope
  rw [List.append_assoc, List.drop_left' s.2]
  exact List.take_left' n.2

theorem envelope_drop (C : Crypto) (W : Bytes) (s : {b : Bytes // b.length = saltSize})
    (n : {b : Bytes // b.length = nonceSize}) (P : Bytes) :
    (envelope C W s.val n.val P).drop (saltSize + nonceSize) =
      C.aeadSeal (deriveKey C W s.val) n.val P := by
  unfold envelope
  exact List.drop_left' (by simp [s.2, n.2])

/-! ## The body of the decryption loop -/

theorem splitEnvelope_readBuffer (e spare : Bytes) (h : saltSize + nonceSize ≤ e.length) :
    splitEnvelope (readBuffer e spare) =
      some (⟨e ++ spare, saltSize⟩, ⟨(e ++ spare).drop saltSize, saltSize + nonceSize - saltSize⟩,
        ⟨(e ++ spare).drop (saltSize + nonceSize), e.length - (saltSize + nonceSize)⟩) := by
  simp only [saltSize, nonceSize] at h
  have h1 : saltSize ≤ (readBuffer e spare).cap := by
    simp [Slice.cap, readBuffer, saltSize]; omega
  have h2 : saltSize ≤ saltSize + nonceSize ∧ saltSize + nonceSize ≤ (readBuffer e spare).cap := by
    simp [Slice.cap, readBuffer, saltSize, nonceSize]; omega
  have h3 : saltSize + nonceSize ≤ (readBuffer e spare).len := by
    simp [readBuffer, saltSize, nonceSize]; omega
  simp only [splitEnvelope, Slice.sliceTo, Slice.sliceRange, Slice.sliceFrom, if_pos h1, if_pos h2,
    if_pos h3]
  rfl

theorem splitEnvelope_short (e spare : Bytes) (h : e.length < saltSize + nonceSize) :
    splitEnvelope (readBuffer e spare) = none := by
  have h3 : ¬ saltSize + nonceSize ≤ (readBuffer e spare).len := by
    simp [readBuffer]; omega
  unfold splitEnvelope
  cases (readBuffer e spare).sliceTo saltSize with
  | none => rfl
  | some a =>
    cases (readBuffer e spare).sliceRange saltSize (saltSize + nonceSize) with
    | none => rfl
    | some b => simp [Slice.sliceFrom, h3]

theorem toBytes_salt (e spare : Bytes) (h : saltSize + nonceSize ≤ e.length) :
    (Slice.mk (e ++ spare) saltSize).toBytes = e.take saltSize := by
  simp only [saltSize, nonceSize] at h
  simp only [Slice.toBytes, saltSize]
  exact List.take_append_of_le_length (by omega)

theorem toBytes_nonce (e spare : Bytes) (h : saltSize + nonceSize ≤ e.length) :
    (Slice.mk ((e ++ spare).drop saltSize) (saltSize + nonceSize - saltSize)).toBytes =
      (e.drop saltSize).take nonceSize := by
  simp only [saltSize, nonceSize] at h
  simp only [Slice.toBytes, saltSize, nonceSize]
  rw [List.drop_append_of_le_length (by omega)]
  exact List.take_append_of_le_length (by simp; omega)

theorem toBytes_ciphertext (e spare : Bytes) (h : saltSize + nonceSize ≤ e.length) :
    (Slice.mk ((e ++ spare).drop (saltSize + nonceSize))
      (e.length - (saltSize + nonceSize))).toBytes = e.drop (saltSize + nonceSize) := by
  simp only [saltSize, nonceSize] at h
  simp only [Slice.toBytes, saltSize, nonceSize]
  rw [List.drop_append_of_le_length (by omega)]
  exact List.take_left' (by simp)

/-- The decryption body on an envelope long enough to be cut: the three
fields are the first 16 bytes, the next 12 and the rest. -/
theorem decryptOne_of_long (C : Crypto) (W : Bytes) (ev : DecEvents) (fs : FS) (file : String)
    (e : Bytes) (hfile : fs file = some e) (hread : ev.readErr = false)
    (hlen : saltSize + nonceSize ≤ e.length) :
    decryptOne C W ev fs file =
      if C.newAEAD (deriveKey C W (e.take saltSize)) = false then some (fs, Msg.errAEAD file)
      else
        match C.aeadOpen (deriveKey C W (e.take saltSize)) ((e.drop saltSize).take nonceSize)
            (e.drop (saltSize + nonceSize)) with
        | none => some (fs, Msg.errDecrypt file)
        | some plaintext =>
          match writeFile fs ev.openErr ev.writeShort (trimSuffix file ".enc") plaintext with
          | (fs1, false) => some (fs1, Msg.errWriteDecrypted (trimSuffix file ".enc"))
          | (fs1, true) =>
            match remove fs1 ev.removeErr file with
            | none => some (fs1, Msg.errDeleteEncrypted file)
            | some fs2 => some (fs2, Msg.decrypted file) := by
  have hr : readFile fs ev.readErr file = some e := by simp [readFile, hread, hfile]
  unfold decryptOne
  simp only [hr, splitEnvelope_readBuffer e ev.spare hlen, toBytes_salt e ev.spare hlen,
    toBytes_nonce e ev.spare hlen, toBytes_ciphertext e ev.spare hlen]

theorem decryptOne_of_short (C : Crypto) (W : Bytes) (ev : DecEvents) (fs : FS) (file : String)
    (e : Bytes) (hfile : fs file = some e) (hread : ev.readErr = false)
    (hlen : e.length < saltSize + nonceSize) :
    decryptOne C W ev fs file = none := by
  have hr : readFile fs ev.readErr file = some e := by simp [readFile, hread, hfile]
  unfold decryptOne
  simp only [hr, splitEnvelope_short e ev.spare hlen]

/-- The decryption body on a file holding an envelope made with the same
password, with no I/O error: the plaintext is written at the stripped path and
the envelope is removed. -/
theorem decryptOne_envelope (C : Crypto) (W : Bytes)
    (s : {b : Bytes // b.length = saltSize}) (n : {b : Bytes // b.length = nonceSize})
    (P : Bytes) (fs1 : FS) (p : String) (spare : Bytes)
    (hopen : ∀ k m x, C.aeadOpen k m (C.aeadSeal k m x) = some x)
    (hnew : C.newAEAD (deriveKey C W s.val) = true)
    (hfile : fs1 (p ++ ".enc") = some (envelope C W s.val n.val P)) :
    ∃ fs2, decryptOne C W (decOk spare) fs1 (p ++ ".enc") =
        some (fs2, Msg.decrypted (p ++ ".enc")) ∧
      fs2 p = some P ∧ fs2 (p ++ ".enc") = none := by
  have hne : p ≠ p ++ ".enc" := fun h => enc_ne_self p h.symm
  rw [decryptOne_of_long C W (decOk spare) _ _ _ hfile rfl (envelope_min_length C W s n P)]
  simp only [envelope_take, envelope_drop_take, envelope_drop, hopen, hnew, trimSuffix_append]
  refine ⟨(fs1.set p (some P)).set (p ++ ".enc") none, ?_, ?_, ?_⟩
  · simp [decOk, writeFile, remove, FS.set_other _ _ _ _ (enc_ne_self p), hfile]
  · rw [FS.set_other _ _ _ _ hne, FS.set_same]
  · rw [FS.set_same]

theorem decryptOne_outcome (C : Crypto) (W : Bytes) (ev : DecEvents) (fs : FS) (q : String)
    (r : FS × Msg) (h : decryptOne C W ev fs q = some r) : DecPost fs q r := by
  unfold decryptOne at h
  cases hr : readFile fs ev.readErr q with
  | none =>
    simp only [hr] at h
    cases h
    exact Or.inl ⟨rfl, by simp⟩
  | some data =>
    simp only [hr] at h
    cases hsp : splitEnvelope (readBuffer data ev.spare) with
    | none => simp only [hsp] at h; cases h
    | some t =>
      obtain ⟨salt, nonce, ct⟩ := t
      simp only [hsp] at h
      by_cases hnew : C.newAEAD (deriveKey C W salt.toBytes) = false
      · simp only [hnew, if_true] at h
        cases h
        exact Or.inl ⟨rfl, by simp⟩
      simp only [hnew, if_false] at h
      cases hop : C.aeadOpen (deriveKey C W salt.toBytes) nonce.toBytes ct.toBytes with
      | none =>
        simp only [hop] at h
        cases h
        exact Or.inl ⟨rfl, by simp⟩
      | some P =>
        simp only [hop] at h
        unfold writeFile at h
        cases hoe : ev.openErr with
        | true =>
          simp only [hoe, if_true] at h
          cases h
          exact Or.inl ⟨rfl, by simp⟩
        | false =>
          cases hws : ev.writeShort with
          | some k =>
            simp only [hoe, hws] at h
            cases h
            exact Or.inr (Or.inl ⟨P, k, rfl, rfl⟩)
          | none =>
            simp only [hoe, hws] at h
            cases hrm : remove (fs.set (trimSuffix q ".enc") (some P)) ev.removeErr q with
            | none =>
              simp only [Bool.false_eq_true, if_false, hrm] at h
              cases h
              exact Or.inr (Or.inr (Or.inl ⟨P, rfl, rfl⟩))
            | some fs2 =>
              obtain ⟨_, rfl⟩ := remove_eq_some hrm
              simp only [Bool.false_eq_true, if_false, hrm] at h
              cases h
              exact Or.inr (Or.inr (Or.inr ⟨P, rfl, rfl⟩))

theorem decryptOne_frame (C : Crypto) (W : Bytes) (ev : DecEvents) (fs : FS) (q : String)
    (r : FS × Msg) (h : decryptOne C W ev fs q = some r) (x : String)
    (h1 : x ≠ q) (h2 : x ≠ trimSuffix q ".enc") : r.1 x = fs x := by
  rcases decryptOne_outcome C W ev fs q r h with ⟨h, _⟩ | ⟨P, k, h, _⟩ | ⟨P, h, _⟩ | ⟨P, h, _⟩
  · rw [h]
  · rw [h, FS.set_other _ _ _ _ h2]
  · rw [h, FS.set_other _ _ _ _ h2]
  · rw [h, FS.set_other _ _ _ _ h1, FS.set_other _ _ _ _ h2]

theorem decryptOne_absent (C : Crypto) (W : Bytes) (ev : DecEvents) (fs : FS) (q : String)
    (h : fs q = none) : decryptOne C W ev fs q = some (fs, Msg.errReadEncrypted q) := by
  have hr : readFile fs ev.readErr q = none := by
    unfold readFile
    cases ev.readErr <;> simp [h]
  unfold decryptOne
  simp only [hr]

/-! ## The walk and the loops -/

theorem encryptWalk_files (executableName : String) (visits : List Visit) :
    (encryptWalk executableName visits).1 =
      (visits.filter (fun v => !v.err && (!v.isDir && base v.path != executableName &&
        !hasSuffix v.path ".enc"))).map Visit.path := by
  induction visits with
  | nil => rfl
  | cons v vs ih =>
    unfold encryptWalk
    by_cases he : v.err = true
    · simp [he, ih]
    · by_cases hc : (!v.isDir && base v.path != executableName && !hasSuffix v.path ".enc") = true
      · simp only [he, hc, if_true, Bool.false_eq_true, if_false]
        rw [List.filter_cons_of_pos (by simp [he, hc]), List.map_cons, ih]
      · simp only [he, hc, Bool.false_eq_true, if_false]
        rw [List.filter_cons_of_neg (by simp [he, hc]), ih]

theorem encryptWalk_log (executableName : String) (visits : List Visit) :
    (encryptWalk executableName visits).2.filterMap Msg.encFile = [] := by
  induction visits with
  | nil => rfl
  | cons v vs ih =>
    unfold encryptWalk
    by_cases he : v.err = true
    · simp [he, ih, Msg.encFile]
    · by_cases hc : (!v.isDir && base v.path != executableName && !hasSuffix v.path ".enc") = true
      · simp only [he, hc, if_true, Bool.false_eq_true, if_false]; exact ih
      · simp only [he, hc, Bool.false_eq_true, if_false]; exact ih

theorem decryptWalk_files (visits : List Visit) :
    (decryptWalk visits).1 =
      (visits.filter (fun v => !v.err && (!v.isDir && hasSuffix v.path ".enc"))).map
        Visit.path := by
  induction visits with
  | nil => rfl
  | cons v vs ih =>
    unfold decryptWalk
    by_cases he : v.err = true
    · simp [he, ih]
    · by_cases hc : (!v.isDir && hasSuffix v.path ".enc") = true
      · simp only [he, hc, if_true, Bool.false_eq_true, if_false]
        rw [List.filter_cons_of_pos (by simp [he, hc]), List.map_cons, ih]
      · simp only [he, hc, Bool.false_eq_true, if_false]
        rw [List.filter_cons_of_neg (by simp [he, hc]), ih]

theorem encryptLoop_log (C : Crypto) (W : Bytes) (executableName : String)
    (env : String → EncEvents) (files : List String) (fs : FS) :
    (encryptLoop C W executableName env files fs).log.filterMap Msg.encFile =
      files.filter (fun f => !(decide (f = executableName) || hasSuffix f ".enc")) := by
  induction files generalizing fs with
  | nil => rfl
  | cons f rest ih =>
    unfold encryptLoop
    by_cases hg : f = executableName ∨ hasSuffix f ".enc" = true
    · rw [if_pos hg, ih, List.filter_cons_of_neg]
      rcases hg with h | h <;> simp [h]
    · rw [if_neg hg]
      simp only
      rw [List.filterMap_cons_some (encryptOne_encFile C W (env f) fs f), ih,
        List.filter_cons_of_pos]
      simp only [not_or] at hg
      simp [hg.1, hg.2]

/-- The files the loop of `encryptFiles` processes, read off the lines it
prints (one per processed file): the list the walk collects, without the
entries line 110 skips. -/
theorem encryptFiles_log (C : Crypto) (W : Bytes) (executablePath : String)
    (visits : List Visit) (env : String → EncEvents) (fs : FS) :
    (encryptFiles C W (some executablePath) visits env fs).log.filterMap Msg.encFile =
      (encryptWalk (base executablePath) visits).1.filter
        (fun f => !(decide (f = base executablePath) || hasSuffix f ".enc")) := by
  unfold encryptFiles
  simp only [List.filterMap_append, encryptWalk_log, List.nil_append, encryptLoop_log]

theorem encryptLoop_fail_keeps (C : Crypto) (W : Bytes) (executableName : String)
    (env : String → EncEvents) (file : String) (hs : hasSuffix file ".enc" = false)
    (fs0 : FS)
    (hfail : (env file).salt = none ∨
      (∃ s, (env file).salt = some s ∧ C.newAEAD (deriveKey C W s.val) = false) ∨
      (env file).nonce = none ∨ readFile fs0 (env file).readErr file = none ∨
      (env file).createErr = true ∨ (env file).writeSalt ≠ none ∨
      (env file).writeNonce ≠ none ∨ (env file).writeCiphertext ≠ none)
    (files : List String) :
    ∀ fs : FS, fs file = fs0 file →
      (encryptLoop C W executableName env files fs).fs file = fs0 file := by
  induction files with
  | nil => intro fs h; exact h
  | cons g rest ih =>
    intro fs h
    unfold encryptLoop
    by_cases hg : g = executableName ∨ hasSuffix g ".enc" = true
    · rw [if_pos hg]; exact ih fs h
    · rw [if_neg hg]
      apply ih
      by_cases hgf : g = file
      · subst hgf
        have hr : readFile fs (env g).readErr g = readFile fs0 (env g).readErr g := by
          simp only [readFile, h]
        rw [← hr] at hfail
        rw [(encryptOne_fail_keeps C W (env g) fs g hfail).1, h]
      · have h2 : file ≠ g ++ ".enc" := by
          intro h3
          rw [h3, append_enc_hasSuffix] at hs
          cases hs
        rw [encryptOne_frame C W (env g) fs g file (fun h3 => hgf h3.symm) h2, h]

/-- Once `p` is removed and `p ++ ".enc"` holds `E`, the rest of the
encryption loop leaves both as they are. -/
theorem encryptLoop_stable (C : Crypto) (W : Bytes) (executableName : String)
    (env : String → EncEvents) (p : String) (E : Bytes)
    (hs : hasSuffix p ".enc" = false) (files : List String) :
    ∀ fs : FS, fs p = none → fs (p ++ ".enc") = some E →
      (encryptLoop C W executableName env files fs).fs p = none ∧
      (encryptLoop C W executableName env files fs).fs (p ++ ".enc") = some E := by
  induction files with
  | nil => intro fs h1 h2; exact ⟨h1, h2⟩
  | cons g rest ih =>
    intro fs h1 h2
    unfold encryptLoop
    by_cases hg : g = executableName ∨ hasSuffix g ".enc" = true
    · rw [if_pos hg]; exact ih fs h1 h2
    · rw [if_neg hg]
      simp only [not_or] at hg
      by_cases hgp : g = p
      · subst hgp
        simp only
        rw [encryptOne_absent C W (env g) fs g h1]
        exact ih fs h1 h2
      · have a1 : p ≠ g := fun h => hgp h.symm
        have a2 : p ≠ g ++ ".enc" := by
          intro h
          rw [h, append_enc_hasSuffix] at hs
          cases hs
        have a3 : p ++ ".enc" ≠ g := by
          intro h
          apply hg.2
          rw [← h, append_enc_hasSuffix]
        have a4 : p ++ ".enc" ≠ g ++ ".enc" := fun h => a1 (append_enc_inj p g h)
        simp only
        apply ih
        · rw [encryptOne_frame C W (env g) fs g p a1 a2, h1]
        · rw [encryptOne_frame C W (env g) fs g (p ++ ".enc") a3 a4, h2]

/-- A file `p` of the list whose encryption meets no failure is, at the end of
the loop, removed and replaced by its envelope. -/
theorem encryptLoop_success (C : Crypto) (W : Bytes) (executableName : String)
    (env : String → EncEvents) (p : String)
    (s : {b : Bytes // b.length = saltSize}) (n : {b : Bytes // b.length = nonceSize})
    (P : Bytes) (hsel : ¬ (p = executableName ∨ hasSuffix p ".enc" = true))
    (hev : env p = encOk s n) (hnew : C.newAEAD (deriveKey C W s.val) = true)
    (files : List String) :
    ∀ fs : FS, p ∈ files → fs p = some P →
      (encryptLoop C W executableName env files fs).fs p = none ∧
      (encryptLoop C W executableName env files fs).fs (p ++ ".enc") =
        some (envelope C W s.val n.val P) := by
  have hs : hasSuffix p ".enc" = false := by
    cases h : hasSuffix p ".enc" with
    | false => rfl
    | true => exact absurd (Or.inr h) hsel
  induction files with
  | nil => intro fs hmem _; cases hmem
  | cons g rest ih =>
    intro fs hmem hfs
    unfold encryptLoop
    by_cases hgp : g = p
    · subst hgp
      rw [if_neg hsel]
      simp only
      rw [hev, encryptOne_ok C W s n P fs g hnew hfs]
      apply encryptLoop_stable C W executableName env g _ hs rest
      · simp only [FS.set_same]
      · simp only [FS.set_other _ _ _ _ (enc_ne_self g), FS.set_same]
    · have hrest : p ∈ rest := by
        rcases List.mem_cons.1 hmem with h | h
        · exact absurd h.symm hgp
        · exact h
      by_cases hg : g = executableName ∨ hasSuffix g ".enc" = true
      · rw [if_pos hg]; exact ih fs hrest hfs
      · rw [if_neg hg]
        simp only
        apply ih _ hrest
        have a2 : p ≠ g ++ ".enc" := by
          intro h
          rw [h, append_enc_hasSuffix] at hs
          cases hs
        rw [encryptOne_frame C W (env g) fs g p (fun h => hgp h.symm) a2, hfs]

/-- A file the walk meets, that is no directory, is not named like the
executable, does not end in ".enc" and whose encryption meets no failure, is,
at the end of `encryptFiles`, removed and replaced by its envelope. -/
theorem encryptFiles_success (C : Crypto) (W : Bytes) (executablePath : String)
    (visits : List Visit) (env : String → EncEvents) (fs : FS) (p : String)
    (s : {b : Bytes // b.length = saltSize}) (n : {b : Bytes // b.length = nonceSize})
    (P : Bytes) (hv : (⟨p, false, false⟩ : Visit) ∈ visits)
    (hb : base p ≠ base executablePath) (hs : hasSuffix p ".enc" = false)
    (hev : env p = encOk s n) (hnew : C.newAEAD (deriveKey C W s.val) = true)
    (hfs : fs p = some P) :
    (encryptFiles C W (some executablePath) visits env fs).fs p = none ∧
    (encryptFiles C W (some executablePath) visits env fs).fs (p ++ ".enc") =
      some (envelope C W s.val n.val P) := by
  have hmem : p ∈ (encryptWalk (base executablePath) visits).1 := by
    rw [encryptWalk_files]
    refine List.mem_map.2 ⟨⟨p, false, false⟩, List.mem_filter.2 ⟨hv, ?_⟩, rfl⟩
    simp [hb, hs]
  have hsel : ¬ (p = base executablePath ∨ hasSuffix p ".enc" = true) := by
    rintro (h | h)
    · apply hb
      rw [h, base_base]
    · rw [hs] at h; cases h
  exact encryptLoop_success C W (base executablePath) env p s n P hsel hev hnew _ fs hmem hfs

theorem decryptWalk_mem (visits : List Visit) (q : String)
    (hv : (⟨q, false, false⟩ : Visit) ∈ visits) (hq : hasSuffix q ".enc" = true) :
    q ∈ (decryptWalk visits).1 := by
  rw [decryptWalk_files]
  refine List.mem_map.2 ⟨⟨q, false, false⟩, List.mem_filter.2 ⟨hv, ?_⟩, rfl⟩
  simp [hq]

theorem decryptWalk_sub (visits : List Visit) (g : String) (hg : g ∈ (decryptWalk visits).1) :
    hasSuffix g ".enc" = true ∧ ∃ v ∈ visits, v.path = g := by
  rw [decryptWalk_files] at hg
  obtain ⟨v, hv, rfl⟩ := List.mem_map.1 hg
  have hc := (List.mem_filter.1 hv).2
  simp only [Bool.and_eq_true, Bool.not_eq_true'] at hc
  exact ⟨hc.2.2, v, (List.mem_filter.1 hv).1, rfl⟩

/-- Once `p` holds `P` and `p ++ ".enc"` is removed, the rest of the
decryption loop leaves both as they are, whether it panics or not, when `p`
does not end in ".enc" and no file of the list is `p ++ ".enc" ++ ".enc"`. -/
theorem decryptLoop_stable (C : Crypto) (W : Bytes) (env : String → DecEvents) (p : String)
    (P : Bytes) (hs : hasSuffix p ".enc" = false) (l : List String)
    (hl : ∀ g ∈ l, hasSuffix g ".enc" = true ∧ g ≠ p ++ ".enc" ++ ".enc") :
    ∀ fs : FS, fs p = some P → fs (p ++ ".enc") = none →
      (decryptLoop C W env l fs).fs p = some P ∧
      (decryptLoop C W env l fs).fs (p ++ ".enc") = none := by
  induction l with
  | nil => intro fs h1 h2; exact ⟨h1, h2⟩
  | cons g rest ih =>
    intro fs h1 h2
    have hrest : ∀ x ∈ rest, hasSuffix x ".enc" = true ∧ x ≠ p ++ ".enc" ++ ".enc" :=
      fun x hx => hl x (List.mem_cons_of_mem g hx)
    obtain ⟨hg, hgg⟩ := hl g (List.mem_cons_self g rest)
    unfold decryptLoop
    cases hd : decryptOne C W (env g) fs g with
    | none => exact ⟨h1, h2⟩
    | some r =>
      simp only
      by_cases hgp : g = p ++ ".enc"
      · subst hgp
        rw [decryptOne_absent C W (env (p ++ ".enc")) fs (p ++ ".enc") h2] at hd
        cases hd
        exact ih hrest fs h1 h2
      · have ht := trimSuffix_append_self g ".enc" hg
        have a1 : p ≠ g := by
          intro h
          rw [h, hg] at hs
          cases hs
        have a2 : p ≠ trimSuffix g ".enc" := by
          intro h
          apply hgp
          rw [h, ht]
        have a3 : p ++ ".enc" ≠ g := fun h => hgp h.symm
        have a4 : p ++ ".enc" ≠ trimSuffix g ".enc" := by
          intro h
          apply hgg
          rw [h, ht]
        apply ih hrest
        · rw [decryptOne_frame C W (env g) fs g r hd p a1 a2, h1]
        · rw [decryptOne_frame C W (env g) fs g r hd (p ++ ".enc") a3 a4, h2]

/-- A file `p ++ ".enc"` of the list that holds the envelope of `P` under the
password of the run, and whose decryption meets no I/O error, is decrypted by
a loop that does not panic: the success line is printed, `p` holds `P` and
`p ++ ".enc"` is removed at the end. -/
theorem decryptLoop_success (C : Crypto) (W : Bytes) (env : String → DecEvents) (p : String)
    (s : {b : Bytes // b.length = saltSize}) (n : {b : Bytes // b.length = nonceSize})
    (P spare : Bytes) (hs : hasSuffix p ".enc" = false)
    (hev : env (p ++ ".enc") = decOk spare)
    (hopen : ∀ k m x, C.aeadOpen k m (C.aeadSeal k m x) = some x)
    (hnew : C.newAEAD (deriveKey C W s.val) = true) (l : List String)
    (hl : ∀ g ∈ l, hasSuffix g ".enc" = true ∧ g ≠ p ++ ".enc" ++ ".enc") :
    ∀ fs : FS, p ++ ".enc" ∈ l → fs (p ++ ".enc") = some (envelope C W s.val n.val P) →
      (decryptLoop C W env l fs).crashed = false →
      Msg.decrypted (p ++ ".enc") ∈ (decryptLoop C W env l fs).log ∧
      (decryptLoop C W env l fs).fs p = some P ∧
      (decryptLoop C W env l fs).fs (p ++ ".enc") = none := by
  induction l with
  | nil => intro fs hmem _ _; cases hmem
  | cons g rest ih =>
    intro fs hmem hfs hcr
    have hrest : ∀ x ∈ rest, hasSuffix x ".enc" = true ∧ x ≠ p ++ ".enc" ++ ".enc" :=
      fun x hx => hl x (List.mem_cons_of_mem g hx)
    obtain ⟨hg, hgg⟩ := hl g (List.mem_cons_self g rest)
    unfold decryptLoop at hcr ⊢
    cases hd : decryptOne C W (env g) fs g with
    | none => simp only [hd] at hcr; cases hcr
    | some r =>
      simp only [hd] at hcr ⊢
      by_cases hgp : g = p ++ ".enc"
      · subst hgp
        obtain ⟨fs2, h2, h3, h4⟩ := decryptOne_envelope C W s n P fs p spare hopen hnew hfs
        rw [hev, h2] at hd
        cases hd
        obtain ⟨k1, k2⟩ := decryptLoop_stable C W env p P hs rest hrest fs2 h3 h4
        exact ⟨List.mem_cons_self _ _, k1, k2⟩
      · have ht := trimSuffix_append_self g ".enc" hg
        have a3 : p ++ ".enc" ≠ g := fun h => hgp h.symm
        have a4 : p ++ ".enc" ≠ trimSuffix g ".enc" := by
          intro h
          apply hgg
          rw [h, ht]
        have hin : p ++ ".enc" ∈ rest := by
          rcases List.mem_cons.1 hmem with h | h
          · exact absurd h a3
          · exact h
        have hfs' : r.1 (p ++ ".enc") = some (envelope C W s.val n.val P) := by
          rw [decryptOne_frame C W (env g) fs g r hd (p ++ ".enc") a3 a4, hfs]
        obtain ⟨k0, k1, k2⟩ := ih hrest r.1 hin hfs' hcr
        exact ⟨List.mem_cons_of_mem _ k0, k1, k2⟩

/-- The whole of `decryptFiles` on a walk that meets `p ++ ".enc"`, a file
holding the envelope of `P` under the password of the run: when the run does
not panic, it prints the success line for `p ++ ".enc"`, and at its end `p`
holds `P` and `p ++ ".enc"` is removed. -/
theorem decryptFiles_success (C : Crypto) (W : Bytes) (visits : List Visit)
    (env : String → DecEvents) (fs : FS) (p : String)
    (s : {b : Bytes // b.length = saltSize}) (n : {b : Bytes // b.length = nonceSize})
    (P spare : Bytes) (hs : hasSuffix p ".enc" = false)
    (hv : (⟨p ++ ".enc", false, false⟩ : Visit) ∈ visits)
    (hev : env (p ++ ".enc") = decOk spare)
    (hno : ∀ v ∈ visits, v.path ≠ p ++ ".enc" ++ ".enc")
    (hopen : ∀ k m x, C.aeadOpen k m (C.aeadSeal k m x) = some x)
    (hnew : C.newAEAD (deriveKey C W s.val) = true)
    (hfs : fs (p ++ ".enc") = some (envelope C W s.val n.val P))
    (hcr : (decryptFiles C W visits env fs).crashed = false) :
    p ++ ".enc" ∈ (decryptWalk visits).1 ∧
    Msg.decrypted (p ++ ".enc") ∈ (decryptFiles C W visits env fs).log ∧
    (decryptFiles C W visits env fs).fs p = some P ∧
    (decryptFiles C W visits env fs).fs (p ++ ".enc") = none := by
  have hmem := decryptWalk_mem visits (p ++ ".enc") hv (append_enc_hasSuffix p)
  have hl : ∀ g ∈ (decryptWalk visits).1,
      hasSuffix g ".enc" = true ∧ g ≠ p ++ ".enc" ++ ".enc" := by
    intro g hg
    obtain ⟨h1, v, hv1, rfl⟩ := decryptWalk_sub visits g hg
    exact ⟨h1, hno v hv1⟩
  obtain ⟨k0, k1, k2⟩ := decryptLoop_success C W env p s n P spare hs hev hopen hnew
    (decryptWalk visits).1 hl fs hmem hfs hcr
  exact ⟨hmem, List.mem_append_right _ k0, k1, k2⟩

theorem decryptLoop_cons_some (C : Crypto) (W : Bytes) (env : String → DecEvents) (g : String)
    (rest : List String) (fs : FS) (r : FS × Msg) (hd : decryptOne C W (env g) fs g = some r) :
    decryptLoop C W env (g :: rest) fs =
      ⟨(decryptLoop C W env rest r.1).fs, r.2 :: (decryptLoop C W env rest r.1).log,
        (decryptLoop C W env rest r.1).crashed⟩ := by
  simp only [decryptLoop, hd]

theorem decryptLoop_cons_none (C : Crypto) (W : Bytes) (env : String → DecEvents) (g : String)
    (rest : List String) (fs : FS) (hd : decryptOne C W (env g) fs g = none) :
    decryptLoop C W env (g :: rest) fs = ⟨fs, [], true⟩ := by
  simp only [decryptLoop, hd]

theorem decryptLoop_append (C : Crypto) (W : Bytes) (env : String → DecEvents)
    (pre l2 : List String) :
    ∀ fs : FS, (decryptLoop C W env pre fs).crashed = false →
      decryptLoop C W env (pre ++ l2) fs =
        ⟨(decryptLoop C W env l2 (decryptLoop C W env pre fs).fs).fs,
          (decryptLoop C W env pre fs).log ++
            (decryptLoop C W env l2 (decryptLoop C W env pre fs).fs).log,
          (decryptLoop C W env l2 (decryptLoop C W env pre fs).fs).crashed⟩ := by
  induction pre with
  | nil => intro fs _; rfl
  | cons g rest ih =>
    intro fs hcr
    rw [List.cons_append]
    cases hd : decryptOne C W (env g) fs g with
    | none =>
      rw [decryptLoop_cons_none C W env g rest fs hd] at hcr
      cases hcr
    | some r =>
      rw [decryptLoop_cons_some C W env g rest fs r hd] at hcr ⊢
      rw [decryptLoop_cons_some C W env g (rest ++ l2) fs r hd, ih r.1 hcr]
      rfl

/-- While `p ++ ".enc"` is not processed, the decryption loop leaves its
contents as they are, whether it panics or not, when no file of the list is
`p ++ ".enc" ++ ".enc"`. -/
theorem decryptLoop_untouched (C : Crypto) (W : Bytes) (env : String → DecEvents) (p : String)
    (E : Bytes) (l : List String)
    (hl : ∀ g ∈ l, hasSuffix g ".enc" = true ∧ g ≠ p ++ ".enc" ++ ".enc")
    (hnot : p ++ ".enc" ∉ l) :
    ∀ fs : FS, fs (p ++ ".enc") = some E →
      (decryptLoop C W env l fs).fs (p ++ ".enc") = some E := by
  induction l with
  | nil => intro fs h; exact h
  | cons g rest ih =>
    intro fs h
    have hrest : ∀ x ∈ rest, hasSuffix x ".enc" = true ∧ x ≠ p ++ ".enc" ++ ".enc" :=
      fun x hx => hl x (List.mem_cons_of_mem g hx)
    obtain ⟨hg, hgg⟩ := hl g (List.mem_cons_self g rest)
    have a3 : p ++ ".enc" ≠ g := fun h3 => hnot (h3 ▸ List.mem_cons_self _ _)
    have hnr : p ++ ".enc" ∉ rest := fun h3 => hnot (List.mem_cons_of_mem g h3)
    unfold decryptLoop
    cases hd : decryptOne C W (env g) fs g with
    | none => exact h
    | some r =>
      simp only
      have ht := trimSuffix_append_self g ".enc" hg
      have a4 : p ++ ".enc" ≠ trimSuffix g ".enc" := by
        intro h4
        apply hgg
        rw [h4, ht]
      apply ih hrest hnr
      rw [decryptOne_frame C W (env g) fs g r hd (p ++ ".enc") a3 a4, h]

/-- The decryption loop over a list `pre ++ (p ++ ".enc") :: post` that does
not panic on `pre`: whatever happens on `post`, the success line of
`p ++ ".enc"` is printed, and at the end `p` holds `P` and `p ++ ".enc"` is
removed. -/
theorem decryptLoop_reach (C : Crypto) (W : Bytes) (env : String → DecEvents) (p : String)
    (s : {b : Bytes // b.length = saltSize}) (n : {b : Bytes // b.length = nonceSize})
    (P spare : Bytes) (hs : hasSuffix p ".enc" = false)
    (hev : env (p ++ ".enc") = decOk spare)
    (hopen : ∀ k m x, C.aeadOpen k m (C.aeadSeal k m x) = some x)
    (hnew : C.newAEAD (deriveKey C W s.val) = true) (pre post : List String)
    (hl : ∀ g ∈ pre ++ (p ++ ".enc") :: post,
      hasSuffix g ".enc" = true ∧ g ≠ p ++ ".enc" ++ ".enc")
    (fs : FS) (hfs : fs (p ++ ".enc") = some (envelope C W s.val n.val P))
    (hcr : (decryptLoop C W env pre fs).crashed = false) :
    Msg.decrypted (p ++ ".enc") ∈ (decryptLoop C W env (pre ++ (p ++ ".enc") :: post) fs).log ∧
    (decryptLoop C W env (pre ++ (p ++ ".enc") :: post) fs).fs p = some P ∧
    (decryptLoop C W env (pre ++ (p ++ ".enc") :: post) fs).fs (p ++ ".enc") = none := by
  have hpre : ∀ g ∈ pre, hasSuffix g ".enc" = true ∧ g ≠ p ++ ".enc" ++ ".enc" :=
    fun g hg => hl g (List.mem_append_left _ hg)
  have htail : ∀ g ∈ (p ++ ".enc") :: post,
      hasSuffix g ".enc" = true ∧ g ≠ p ++ ".enc" ++ ".enc" :=
    fun g hg => hl g (List.mem_append_right _ hg)
  have hpost : ∀ g ∈ post, hasSuffix g ".enc" = true ∧ g ≠ p ++ ".enc" ++ ".enc" :=
    fun g hg => htail g (List.mem_cons_of_mem _ hg)
  rw [decryptLoop_append C W env pre _ fs hcr]
  simp only
  by_cases hin : p ++ ".enc" ∈ pre
  · obtain ⟨k0, k1, k2⟩ := decryptLoop_success C W env p s n P spare hs hev hopen hnew pre hpre
      fs hin hfs hcr
    obtain ⟨j1, j2⟩ := decryptLoop_stable C W env p P hs _ htail _ k1 k2
    exact ⟨List.mem_append_left _ k0, j1, j2⟩
  · have hI := decryptLoop_untouched C W env p _ pre hpre hin fs hfs
    obtain ⟨fs2, h2, h3, h4⟩ := decryptOne_envelope C W s n P _ p spare hopen hnew hI
    rw [← hev] at h2
    have hstep : decryptLoop C W env ((p ++ ".enc") :: post) (decryptLoop C W env pre fs).fs =
        ⟨(decryptLoop C W env post fs2).fs,
          Msg.decrypted (p ++ ".enc") :: (decryptLoop C W env post fs2).log,
          (decryptLoop C W env post fs2).crashed⟩ := by
      simp only [decryptLoop, h2]
    rw [hstep]
    obtain ⟨j1, j2⟩ := decryptLoop_stable C W env p P hs post hpost fs2 h3 h4
    exact ⟨List.mem_append_right _ (List.mem_cons_self _ _), j1, j2⟩

/-- The whole of `decryptFiles` on a walk whose list of candidates is
`pre ++ (p ++ ".enc") :: post`, when the loop does not panic on `pre`:
whatever happens on `post`, the success line of `p ++ ".enc"` is printed, and
at the end `p` holds `P` and `p ++ ".enc"` is removed. -/
theorem decryptFiles_reach (C : Crypto) (W : Bytes) (visits : List Visit)
    (env : String → DecEvents) (fs : FS) (p : String)
    (s : {b : Bytes // b.length = saltSize}) (n : {b : Bytes // b.length = nonceSize})
    (P spare : Bytes) (pre post : List String) (hs : hasSuffix p ".enc" = false)
    (hw : (decryptWalk visits).1 = pre ++ (p ++ ".enc") :: post)
    (hev : env (p ++ ".enc") = decOk spare)
    (hno : ∀ v ∈ visits, v.path ≠ p ++ ".enc" ++ ".enc")
    (hopen : ∀ k m x, C.aeadOpen k m (C.aeadSeal k m x) = some x)
    (hnew : C.newAEAD (deriveKey C W s.val) = true)
    (hfs : fs (p ++ ".enc") = some (envelope C W s.val n.val P))
    (hcr : (decryptLoop C W env pre fs).crashed = false) :
    Msg.decrypted (p ++ ".enc") ∈ (decryptFiles C W visits env fs).log ∧
    (decryptFiles C W visits env fs).fs p = some P ∧
    (decryptFiles C W visits env fs).fs (p ++ ".enc") = none := by
  have hl : ∀ g ∈ pre ++ (p ++ ".enc") :: post,
      hasSuffix g ".enc" = true ∧ g ≠ p ++ ".enc" ++ ".enc" := by
    intro g hg
    rw [← hw] at hg
    obtain ⟨h1, v, hv1, rfl⟩ := decryptWalk_sub visits g hg
    exact ⟨h1, hno v hv1⟩
  obtain ⟨k0, k1, k2⟩ := decryptLoop_reach C W env p s n P spare hs hev hopen hnew pre post hl
    fs hfs hcr
  unfold decryptFiles
  simp only [hw]
  exact ⟨List.mem_append_right _ k0, k1, k2⟩

/-! ## The sample primitives -/

theorem sampleTag_length (k m : Bytes) : (sampleTag k m).length = 16 := by
  simp [sampleTag]
  omega

theorem sample_open_seal (k m x : Bytes) :
    sampleCrypto.aeadOpen k m (sampleCrypto.aeadSeal k m x) = some x := by
  have h := sampleTag_length k m
  simp [sampleCrypto, h]

theorem sample_seal_length (k m x : Bytes) :
    (sampleCrypto.aeadSeal k m x).length = x.length + 16 := by
  simp [sampleCrypto, sampleTag_length]

theorem sample_newAEAD (W s : Bytes) : sampleCrypto.newAEAD (deriveKey sampleCrypto W s) = true := by
  simp [sampleCrypto, deriveKey, keySize]
  omega

/-! ## The claims -/

/-- C1. Round trip of the file pipeline. For every password `W`, 16-byte salt
`s`, 12-byte nonce `n` and plaintext `P` (the empty one included), when the
file `p` holds `P`:
* the body of `encryptFiles` run on `p` with `W`, drawing `s` and `n`, with no
  I/O error, reports success, and the body of `decryptFiles` then run on
  `p ++ ".enc"` with the same `W`, with no I/O error, reports success, leaves
  `P` in the file `p` and removes `p ++ ".enc"`;
* the same holds of the decryption body run after a whole run of
  `encryptFiles` over any walk that meets `p`, a file not named like the
  executable and not ending in ".enc";
* and of the two whole runs: after `encryptFiles` over such a walk,
  `decryptFiles` with the same `W` over any walk that meets `p ++ ".enc"` (and
  no file `p ++ ".enc" ++ ".enc"`, whose decryption would write `p ++ ".enc"`
  anew), with no I/O error on `p ++ ".enc"` and no panic on another file,
  selects `p ++ ".enc"`, prints its success line, and ends with `P` in the
  file `p` and `p ++ ".enc"` removed;
* more precisely, it is enough that the loop of `decryptFiles` does not panic
  on the files `pre` that its walk lists before `p ++ ".enc"`: the three
  conclusions then hold at the end of the run even when it panics on a later
  file.
The AEAD is any pair with `aeadOpen k m (aeadSeal k m x) = some x` whose
construction from the derived key succeeds; `deriveKey` is any function. -/
theorem roundtrip_encrypt_decrypt (C : Crypto) (W : Bytes)
    (s : {b : Bytes // b.length = saltSize}) (n : {b : Bytes // b.length = nonceSize})
    (P : Bytes) (fs : FS) (p : String) (spare : Bytes) (executablePath : String)
    (visits : List Visit) (env : String → EncEvents)
    (visitsD : List Visit) (envD : String → DecEvents)
    (hopen : ∀ k m x, C.aeadOpen k m (C.aeadSeal k m x) = some x)
    (hnew : C.newAEAD (deriveKey C W s.val) = true)
    (hfile : fs p = some P) :
    ((encryptOne C W (encOk s n) fs p).2 = Msg.encrypted p ∧
      ∃ fs2, decryptOne C W (decOk spare) (encryptOne C W (encOk s n) fs p).1 (p ++ ".enc") =
          some (fs2, Msg.decrypted (p ++ ".enc")) ∧
        fs2 p = some P ∧ fs2 (p ++ ".enc") = none) ∧
    ((⟨p, false, false⟩ : Visit) ∈ visits → base p ≠ base executablePath →
      hasSuffix p ".enc" = false → env p = encOk s n →
      ∃ fs2, decryptOne C W (decOk spare)
          (encryptFiles C W (some executablePath) visits env fs).fs (p ++ ".enc") =
          some (fs2, Msg.decrypted (p ++ ".enc")) ∧
        fs2 p = some P ∧ fs2 (p ++ ".enc") = none) ∧
    ((⟨p, false, false⟩ : Visit) ∈ visits → base p ≠ base executablePath →
      hasSuffix p ".enc" = false → env p = encOk s n →
      (⟨p ++ ".enc", false, false⟩ : Visit) ∈ visitsD →
      (∀ v ∈ visitsD, v.path ≠ p ++ ".enc" ++ ".enc") →
      envD (p ++ ".enc") = decOk spare →
      (decryptFiles C W visitsD envD
        (encryptFiles C W (some executablePath) visits env fs).fs).crashed = false →
      p ++ ".enc" ∈ (decryptWalk visitsD).1 ∧
      Msg.decrypted (p ++ ".enc") ∈
        (decryptFiles C W visitsD envD
          (encryptFiles C W (some executablePath) visits env fs).fs).log ∧
      (decryptFiles C W visitsD envD
        (encryptFiles C W (some executablePath) visits env fs).fs).fs p = some P ∧
      (decryptFiles C W visitsD envD
        (encryptFiles C W (some executablePath) visits env fs).fs).fs (p ++ ".enc") = none) ∧
    ((⟨p, false, false⟩ : Visit) ∈ visits → base p ≠ base executablePath →
      hasSuffix p ".enc" = false → env p = encOk s n →
      (∀ v ∈ visitsD, v.path ≠ p ++ ".enc" ++ ".enc") →
      envD (p ++ ".enc") = decOk spare →
      ∀ pre post : List String, (decryptWalk visitsD).1 = pre ++ (p ++ ".enc") :: post →
      (decryptLoop C W envD pre
        (encryptFiles C W (some executablePath) visits env fs).fs).crashed = false →
      Msg.decrypted (p ++ ".enc") ∈
        (decryptFiles C W visitsD envD
          (encryptFiles C W (some executablePath) visits env fs).fs).log ∧
      (decryptFiles C W visitsD envD
        (encryptFiles C W (some executablePath) visits env fs).fs).fs p = some P ∧
      (decryptFiles C W visitsD envD
        (encryptFiles C W (some executablePath) visits env fs).fs).fs (p ++ ".enc") = none) := by
  refine ⟨⟨?_, ?_⟩, fun hv hb hs hev => ?_, fun hv hb hs hev hvD hno hevD hcr => ?_,
    fun hv hb hs hev hno hevD pre post hw hcr => ?_⟩
  · rw [encryptOne_ok C W s n P fs p hnew hfile]
  · apply decryptOne_envelope C W s n P _ p spare hopen hnew
    rw [encryptOne_ok C W s n P fs p hnew hfile]
    simp only [FS.set_other _ _ _ _ (enc_ne_self p), FS.set_same]
  · exact decryptOne_envelope C W s n P _ p spare hopen hnew
      (encryptFiles_success C W executablePath visits env fs p s n P hv hb hs hev hnew hfile).2
  · exact decryptFiles_success C W visitsD envD _ p s n P spare hs hvD hevD hno hopen hnew
      (encryptFiles_success C W executablePath visits env fs p s n P hv hb hs hev hnew hfile).2
      hcr
  · exact decryptFiles_reach C W visitsD envD _ p s n P spare pre post hs hw hevD hno hopen hnew
      (encryptFiles_success C W executablePath visits env fs p s n P hv hb hs hev hnew hfile).2
      hcr

/-- Witness of C1: the directory `roundTree`, password "correct-horse", the
program being "/opt/kerrious". `encryptFiles` encrypts "notes.txt"; then
`decryptFiles` fails to open "junk.enc", goes on, decrypts "notes.txt.enc",
and ends with the three bytes back in "notes.txt" and no "notes.txt.enc". With
the 1-byte "tiny.enc" added to the directory, the run panics on it after
"notes.txt.enc", which is decrypted all the same. -/
theorem roundtrip_encrypt_decrypt_witness :
    (decryptFiles sampleCrypto (asciiBytes "correct-horse") roundTreeEnc (fun _ => decOk [0, 0])
      (encryptFiles sampleCrypto (asciiBytes "correct-horse") (some "/opt/kerrious") roundTree
        (fun _ => encOk sampleSalt sampleNonce) roundFS).fs).log =
      [Msg.errDecrypt "junk.enc", Msg.decrypted "notes.txt.enc"] ∧
    ((encryptOne sampleCrypto (asciiBytes "correct-horse") (encOk sampleSalt sampleNonce)
        roundFS "notes.txt").2 = Msg.encrypted "notes.txt" ∧
      ∃ fs2, decryptOne sampleCrypto (asciiBytes "correct-horse") (decOk [0, 0])
          (encryptOne sampleCrypto (asciiBytes "correct-horse") (encOk sampleSalt sampleNonce)
            roundFS "notes.txt").1 ("notes.txt" ++ ".enc") =
          some (fs2, Msg.decrypted ("notes.txt" ++ ".enc")) ∧
        fs2 "notes.txt" = some [1, 2, 3] ∧ fs2 ("notes.txt" ++ ".enc") = none) ∧
    (∃ fs2, decryptOne sampleCrypto (asciiBytes "correct-horse") (decOk [0, 0])
        (encryptFiles sampleCrypto (asciiBytes "correct-horse") (some "/opt/kerrious") roundTree
          (fun _ => encOk sampleSalt sampleNonce) roundFS).fs ("notes.txt" ++ ".enc") =
        some (fs2, Msg.decrypted ("notes.txt" ++ ".enc")) ∧
      fs2 "notes.txt" = some [1, 2, 3] ∧ fs2 ("notes.txt" ++ ".enc") = none) ∧
    ("notes.txt" ++ ".enc" ∈ (decryptWalk roundTreeEnc).1 ∧
      Msg.decrypted ("notes.txt" ++ ".enc") ∈
        (decryptFiles sampleCrypto (asciiBytes "correct-horse") roundTreeEnc
          (fun _ => decOk [0, 0])
          (encryptFiles sampleCrypto (asciiBytes "correct-horse") (some "/opt/kerrious")
            roundTree (fun _ => encOk sampleSalt sampleNonce) roundFS).fs).log ∧
      (decryptFiles sampleCrypto (asciiBytes "correct-horse") roundTreeEnc
        (fun _ => decOk [0, 0])
        (encryptFiles sampleCrypto (asciiBytes "correct-horse") (some "/opt/kerrious")
          roundTree (fun _ => encOk sampleSalt sampleNonce) roundFS).fs).fs "notes.txt" =
        some [1, 2, 3] ∧
      (decryptFiles sampleCrypto (asciiBytes "correct-horse") roundTreeEnc
        (fun _ => decOk [0, 0])
        (encryptFiles sampleCrypto (asciiBytes "correct-horse") (some "/opt/kerrious")
          roundTree (fun _ => encOk sampleSalt sampleNonce) roundFS).fs).fs
        ("notes.txt" ++ ".enc") = none) ∧
    (decryptFiles sampleCrypto (asciiBytes "correct-horse") roundTreeEncTiny
      (fun _ => decOk [0, 0])
      (encryptFiles sampleCrypto (asciiBytes "correct-horse") (some "/opt/kerrious")
        roundTreeTiny (fun _ => encOk sampleSalt sampleNonce) roundFSTiny).fs).crashed = true ∧
    (Msg.decrypted ("notes.txt" ++ ".enc") ∈
        (decryptFiles sampleCrypto (asciiBytes "correct-horse") roundTreeEncTiny
          (fun _ => decOk [0, 0])
          (encryptFiles sampleCrypto (asciiBytes "correct-horse") (some "/opt/kerrious")
            roundTreeTiny (fun _ => encOk sampleSalt sampleNonce) roundFSTiny).fs).log ∧
      (decryptFiles sampleCrypto (asciiBytes "correct-horse") roundTreeEncTiny
        (fun _ => decOk [0, 0])
        (encryptFiles sampleCrypto (asciiBytes "correct-horse") (some "/opt/kerrious")
          roundTreeTiny (fun _ => encOk sampleSalt sampleNonce) roundFSTiny).fs).fs "notes.txt" =
        some [1, 2, 3] ∧
      (decryptFiles sampleCrypto (asciiBytes "correct-horse") roundTreeEncTiny
        (fun _ => decOk [0, 0])
        (encryptFiles sampleCrypto (asciiBytes "correct-horse") (some "/opt/kerrious")
          roundTreeTiny (fun _ => encOk sampleSalt sampleNonce) roundFSTiny).fs).fs
        ("notes.txt" ++ ".enc") = none) :=
  ⟨by decide,
    (roundtrip_encrypt_decrypt sampleCrypto (asciiBytes "correct-horse") sampleSalt sampleNonce
      [1, 2, 3] roundFS "notes.txt" [0, 0] "/opt/kerrious" roundTree
      (fun _ => encOk sampleSalt sampleNonce) roundTreeEnc (fun _ => decOk [0, 0])
      sample_open_seal (sample_newAEAD _ _) (by decide)).1,
    (roundtrip_encrypt_decrypt sampleCrypto (asciiBytes "correct-horse") sampleSalt sampleNonce
      [1, 2, 3] roundFS "notes.txt" [0, 0] "/opt/kerrious" roundTree
      (fun _ => encOk sampleSalt sampleNonce) roundTreeEnc (fun _ => decOk [0, 0])
      sample_open_seal (sample_newAEAD _ _) (by decide)).2.1
      (by decide) (by decide) (by decide) rfl,
    (roundtrip_encrypt_decrypt sampleCrypto (asciiBytes "correct-horse") sampleSalt sampleNonce
      [1, 2, 3] roundFS "notes.txt" [0, 0] "/opt/kerrious" roundTree
      (fun _ => encOk sampleSalt sampleNonce) roundTreeEnc (fun _ => decOk [0, 0])
      sample_open_seal (sample_newAEAD _ _) (by decide)).2.2.1
      (by decide) (by decide) (by decide) rfl (by decide) (by decide) rfl (by decide),
    by decide,
    (roundtrip_encrypt_decrypt sampleCrypto (asciiBytes "correct-horse") sampleSalt sampleNonce
      [1, 2, 3] roundFSTiny "notes.txt" [0, 0] "/opt/kerrious" roundTreeTiny
      (fun _ => encOk sampleSalt sampleNonce) roundTreeEncTiny (fun _ => decOk [0, 0])
      sample_open_seal (sample_newAEAD _ _) (by decide)).2.2.2
      (by decide) (by decide) (by decide) rfl (by decide) rfl ["junk.enc"] ["tiny.enc"]
      (by decide) (by decide)⟩

/-- C2. Envelope layout. For every file `p` that the body of `encryptFiles`
encrypts successfully, with plaintext `P`, drawn salt `s` and drawn nonce `n`,
the file `p ++ ".enc"` holds exactly `s ++ n ++ seal(deriveKey(password, s), n,
P)`, after the body and also at the end of a whole run of `encryptFiles` over
any walk that meets `p` (a file not named like the executable); the three
slice expressions of `decryptFiles` cut any envelope `e` of at least 28 bytes
into its first 16 bytes, the next 12 and the rest; and cutting the written
envelope gives back `s`, `n` and the sealed plaintext. -/
theorem envelope_layout (C : Crypto) (W : Bytes) (env : String → EncEvents) (fs : FS)
    (p : String) (e spare : Bytes) (executablePath : String) (visits : List Visit)
    (hok : (encryptOne C W (env p) fs p).2 = Msg.encrypted p)
    (hlen : 28 ≤ e.length) :
    (∃ s n P, (env p).salt = some s ∧ (env p).nonce = some n ∧ fs p = some P ∧
      (encryptOne C W (env p) fs p).1 (p ++ ".enc") =
        some (s.val ++ n.val ++ C.aeadSeal (deriveKey C W s.val) n.val P) ∧
      ((⟨p, false, false⟩ : Visit) ∈ visits → base p ≠ base executablePath →
        hasSuffix p ".enc" = false →
        (encryptFiles C W (some executablePath) visits env fs).fs (p ++ ".enc") =
          some (s.val ++ n.val ++ C.aeadSeal (deriveKey C W s.val) n.val P)) ∧
      (splitEnvelope (readBuffer (s.val ++ n.val ++ C.aeadSeal (deriveKey C W s.val) n.val P)
          spare)).map (fun t => (t.1.toBytes, t.2.1.toBytes, t.2.2.toBytes)) =
        some (s.val, n.val, C.aeadSeal (deriveKey C W s.val) n.val P)) ∧
    (splitEnvelope (readBuffer e spare)).map
        (fun t => (t.1.toBytes, t.2.1.toBytes, t.2.2.toBytes)) =
      some (e.take 16, (e.drop 16).take 12, e.drop 28) := by
  constructor
  · obtain ⟨s, n, P, hev, hnew, hP⟩ := encryptOne_encrypted_events C W (env p) fs p hok
    have hfs := encryptOne_ok C W s n P fs p hnew hP
    rw [← hev] at hfs
    refine ⟨s, n, P, by rw [hev]; rfl, by rw [hev]; rfl, hP, ?_, fun hv hb hs => ?_, ?_⟩
    · rw [hfs]
      simp only [FS.set_other _ _ _ _ (enc_ne_self p), FS.set_same]
      rfl
    · exact (encryptFiles_success C W executablePath visits env fs p s n P hv hb hs hev hnew
        hP).2
    · have hl := envelope_min_length C W s n P
      have h := splitEnvelope_readBuffer (envelope C W s.val n.val P) spare hl
      unfold envelope at h hl
      rw [h]
      simp only [Option.map_some']
      have h1 := toBytes_salt _ spare hl
      have h2 := toBytes_nonce _ spare hl
      have h3 := toBytes_ciphertext _ spare hl
      have e1 := envelope_take C W s n P
      have e2 := envelope_drop_take C W s n P
      have e3 := envelope_drop C W s n P
      unfold envelope at e1 e2 e3
      rw [h1, h2, h3, e1, e2, e3]
  · have hl : saltSize + nonceSize ≤ e.length := hlen
    rw [splitEnvelope_readBuffer e spare hl]
    simp only [Option.map_some']
    rw [toBytes_salt e spare hl, toBytes_nonce e spare hl, toBytes_ciphertext e spare hl]
    rfl

/-- Witness of C2: the file "a.bin" of two bytes, and a 30-byte envelope. -/
theorem envelope_layout_witness :
    (∃ s n P, (encOk sampleSalt sampleNonce).salt = some s ∧
      (encOk sampleSalt sampleNonce).nonce = some n ∧ singleFile "a.bin" [1, 2] "a.bin" = some P ∧
      (encryptOne sampleCrypto (asciiBytes "pw") (encOk sampleSalt sampleNonce)
          (singleFile "a.bin" [1, 2]) "a.bin").1 ("a.bin" ++ ".enc") =
        some (s.val ++ n.val ++ sampleCrypto.aeadSeal (deriveKey sampleCrypto (asciiBytes "pw") s.val)
          n.val P) ∧
      ((⟨"a.bin", false, false⟩ : Visit) ∈ [⟨".", true, false⟩, ⟨"a.bin", false, false⟩] →
        base "a.bin" ≠ base "/opt/kerrious" → hasSuffix "a.bin" ".enc" = false →
        (encryptFiles sampleCrypto (asciiBytes "pw") (some "/opt/kerrious")
            [⟨".", true, false⟩, ⟨"a.bin", false, false⟩] (fun _ => encOk sampleSalt sampleNonce)
            (singleFile "a.bin" [1, 2])).fs ("a.bin" ++ ".enc") =
          some (s.val ++ n.val ++
            sampleCrypto.aeadSeal (deriveKey sampleCrypto (asciiBytes "pw") s.val) n.val P)) ∧
      (splitEnvelope (readBuffer (s.val ++ n.val ++
          sampleCrypto.aeadSeal (deriveKey sampleCrypto (asciiBytes "pw") s.val) n.val P)
          [])).map (fun t => (t.1.toBytes, t.2.1.toBytes, t.2.2.toBytes)) =
        some (s.val, n.val,
          sampleCrypto.aeadSeal (deriveKey sampleCrypto (asciiBytes "pw") s.val) n.val P)) ∧
    (splitEnvelope (readBuffer (List.replicate 30 5) [])).map
        (fun t => (t.1.toBytes, t.2.1.toBytes, t.2.2.toBytes)) =
      some ((List.replicate 30 5).take 16, ((List.replicate 30 5).drop 16).take 12,
        (List.replicate 30 5).drop 28) :=
  envelope_layout sampleCrypto (asciiBytes "pw") (fun _ => encOk sampleSalt sampleNonce)
    (singleFile "a.bin" [1, 2]) "a.bin" (List.replicate 30 5) [] "/opt/kerrious"
    [⟨".", true, false⟩, ⟨"a.bin", false, false⟩] (by decide) (by decide)

/-- C3. Format invariant. When sealing adds a 16-byte tag, every envelope the
body of `encryptFiles` completes for a plaintext of length `L` (it then
reports success, or a failure to remove the original) has exactly
`16 + 12 + L + 16` bytes; on success the original is removed, and at the end
of a whole run of `encryptFiles` over any walk that meets the file (not named
like the executable) the envelope is that same one and the original is
absent. -/
theorem envelope_length (C : Crypto) (W : Bytes) (env : String → EncEvents) (fs : FS)
    (p : String) (executablePath : String) (visits : List Visit)
    (htag : ∀ k m x, (C.aeadSeal k m x).length = x.length + 16)
    (hdone : (encryptOne C W (env p) fs p).2 = Msg.encrypted p ∨
      (encryptOne C W (env p) fs p).2 = Msg.errDelete p) :
    ∃ P e, fs p = some P ∧ (encryptOne C W (env p) fs p).1 (p ++ ".enc") = some e ∧
      e.length = 16 + 12 + P.length + 16 ∧
      ((encryptOne C W (env p) fs p).2 = Msg.encrypted p →
        (encryptOne C W (env p) fs p).1 p = none ∧
        ((⟨p, false, false⟩ : Visit) ∈ visits → base p ≠ base executablePath →
          hasSuffix p ".enc" = false →
          (encryptFiles C W (some executablePath) visits env fs).fs (p ++ ".enc") = some e ∧
          (encryptFiles C W (some executablePath) visits env fs).fs p = none)) := by
  have hl : ∀ (s : {b : Bytes // b.length = saltSize}) (n : {b : Bytes // b.length = nonceSize})
      (P : Bytes), (envelope C W s.val n.val P).length = 16 + 12 + P.length + 16 := by
    intro s n P
    have h1 : s.val.length = 16 := s.2
    have h2 : n.val.length = 12 := n.2
    simp only [envelope, List.length_append, htag, h1, h2]
    omega
  rcases hdone with hok | hdel
  · obtain ⟨s, n, P, hev, hnew, hP⟩ := encryptOne_encrypted_events C W (env p) fs p hok
    have hfs := encryptOne_ok C W s n P fs p hnew hP
    rw [← hev] at hfs
    refine ⟨P, envelope C W s.val n.val P, hP, ?_, hl s n P, fun _ => ⟨?_, fun hv hb hs => ?_⟩⟩
    · rw [hfs]
      simp only [FS.set_other _ _ _ _ (enc_ne_self p), FS.set_same]
    · rw [hfs]
      simp only [FS.set_same]
    · exact (encryptFiles_success C W executablePath visits env fs p s n P hv hb hs hev hnew
        hP).symm
  · obtain ⟨s, n, P, _, _, hP, hfs⟩ := encryptOne_errDelete C W (env p) fs p hdel
    refine ⟨P, envelope C W s.val n.val P, hP, ?_, hl s n P, fun h => ?_⟩
    · rw [hfs, FS.set_same]
    · rw [hdel] at h; cases h

/-- Witness of C3: the 0-byte file "empty.txt" encrypted with the password
"correct-horse" gives "empty.txt.enc" of exactly 44 bytes and removes
"empty.txt", in the body and in the whole run over the directory. -/
theorem envelope_length_witness :
    ((encryptOne sampleCrypto (asciiBytes "correct-horse") (encOk sampleSalt sampleNonce)
        (singleFile "empty.txt" []) "empty.txt").1 "empty.txt.enc").map List.length = some 44 ∧
    (encryptOne sampleCrypto (asciiBytes "correct-horse") (encOk sampleSalt sampleNonce)
        (singleFile "empty.txt" []) "empty.txt").1 "empty.txt" = none ∧
    ((encryptFiles sampleCrypto (asciiBytes "correct-horse") (some "/opt/kerrious")
        [⟨".", true, false⟩, ⟨"empty.txt", false, false⟩] (fun _ => encOk sampleSalt sampleNonce)
        (singleFile "empty.txt" [])).fs "empty.txt.enc").map List.length = some 44 ∧
    (encryptFiles sampleCrypto (asciiBytes "correct-horse") (some "/opt/kerrious")
        [⟨".", true, false⟩, ⟨"empty.txt", false, false⟩] (fun _ => encOk sampleSalt sampleNonce)
        (singleFile "empty.txt" [])).fs "empty.txt" = none := by
  obtain ⟨P, e, hP, he, hlen, hrm⟩ :=
    envelope_length sampleCrypto (asciiBytes "correct-horse")
      (fun _ => encOk sampleSalt sampleNonce) (singleFile "empty.txt" []) "empty.txt"
      "/opt/kerrious" [⟨".", true, false⟩, ⟨"empty.txt", false, false⟩] sample_seal_length
      (Or.inl (by decide))
  have hP0 : P = [] := by
    have h : singleFile "empty.txt" [] "empty.txt" = some [] := by decide
    rw [h] at hP
    exact (Option.some.inj hP).symm
  subst hP0
  obtain ⟨hrm1, hrun⟩ := hrm (by decide)
  obtain ⟨hr1, hr2⟩ := hrun (by decide) (by decide) (by decide)
  have he2 : (encryptOne sampleCrypto (asciiBytes "correct-horse") (encOk sampleSalt sampleNonce)
      (singleFile "empty.txt" []) "empty.txt").1 "empty.txt.enc" = some e := he
  have hr3 : (encryptFiles sampleCrypto (asciiBytes "correct-horse") (some "/opt/kerrious")
      [⟨".", true, false⟩, ⟨"empty.txt", false, false⟩] (fun _ => encOk sampleSalt sampleNonce)
      (singleFile "empty.txt" [])).fs "empty.txt.enc" = some e := hr1
  rw [he2, hr3]
  exact ⟨by simp [hlen], hrm1, by simp [hlen], hr2⟩

/-- C4 fails on the code. For every file shorter than 28 bytes that is read
without error, whatever the capacity of the buffer `os.ReadFile` returns, the
body of `decryptFiles` panics in the slice expressions of lines 198-200; the
loop ends there: it prints no line for the file, leaves the file system as it
was (no plaintext written, the envelope in place), and processes none of the
files that follow. -/
theorem short_envelope_panics (C : Crypto) (W : Bytes) (env : String → DecEvents) (fs : FS)
    (file : String) (rest : List String) (e : Bytes)
    (hfile : fs file = some e) (hlen : e.length < 28) (hread : (env file).readErr = false) :
    decryptOne C W (env file) fs file = none ∧
    decryptLoop C W env (file :: rest) fs = ⟨fs, [], true⟩ := by
  have h1 : decryptOne C W (env file) fs file = none :=
    decryptOne_of_short C W (env file) fs file e hfile hread hlen
  refine ⟨h1, ?_⟩
  simp only [decryptLoop, h1]

/-- C4 at a failing input: the directory holds the 3-byte file "short.enc"
and the well-formed "valid.enc" (the buffer of `os.ReadFile` having a capacity
of 512 bytes). The run of `decryptFiles` panics on "short.enc": nothing is
printed and "valid.enc" is not decrypted, while it is when "short.enc" is
absent. -/
theorem short_envelope_panics_witness :
    (decryptOne sampleCrypto (asciiBytes "pw") (decOk (List.replicate 509 0)) shortFS
        "short.enc" = none ∧
      decryptLoop sampleCrypto (asciiBytes "pw") (fun _ => decOk (List.replicate 509 0))
        ["short.enc", "valid.enc"] shortFS = ⟨shortFS, [], true⟩) ∧
    (decryptFiles sampleCrypto (asciiBytes "pw") shortTree
      (fun _ => decOk (List.replicate 509 0)) shortFS).crashed = true ∧
    (decryptFiles sampleCrypto (asciiBytes "pw") shortTree
      (fun _ => decOk (List.replicate 509 0)) shortFS).log = [] ∧
    (decryptFiles sampleCrypto (asciiBytes "pw") shortTree
      (fun _ => decOk (List.replicate 509 0)) shortFS).fs "valid" = none ∧
    (decryptFiles sampleCrypto (asciiBytes "pw")
      [⟨".", true, false⟩, ⟨"valid.enc", false, false⟩]
      (fun _ => decOk (List.replicate 509 0)) shortFS).log = [Msg.decrypted "valid.enc"] ∧
    (decryptFiles sampleCrypto (asciiBytes "pw")
      [⟨".", true, false⟩, ⟨"valid.enc", false, false⟩]
      (fun _ => decOk (List.replicate 509 0)) shortFS).fs "valid" = some [42] :=
  ⟨short_envelope_panics sampleCrypto (asciiBytes "pw") (fun _ => decOk (List.replicate 509 0))
      shortFS "short.enc" ["valid.enc"] [1, 2, 3] (by decide) (by decide) rfl,
    by decide, by decide, by decide, by decide, by decide⟩

/-- C5. Authentication failure is non-destructive. For every file of at least
28 bytes that is read without error, whose AEAD is constructed, and on which
`aeadOpen` fails: the body of `decryptFiles` prints the one line "Error
decrypting" for that file and leaves the whole file system as it was (nothing
is written at the stripped path, the `.enc` file is neither removed nor
modified), and the loop goes on with the rest of the list from that same file
system. -/
theorem auth_failure_nondestructive (C : Crypto) (W : Bytes) (env : String → DecEvents)
    (fs : FS) (file : String) (rest : List String) (e : Bytes)
    (hfile : fs file = some e) (hlen : 28 ≤ e.length) (hread : (env file).readErr = false)
    (hnew : C.newAEAD (deriveKey C W (e.take 16)) = true)
    (hfail : C.aeadOpen (deriveKey C W (e.take 16)) ((e.drop 16).take 12) (e.drop 28) = none) :
    decryptOne C W (env file) fs file = some (fs, Msg.errDecrypt file) ∧
    decryptLoop C W env (file :: rest) fs =
      ⟨(decryptLoop C W env rest fs).fs, Msg.errDecrypt file :: (decryptLoop C W env rest fs).log,
        (decryptLoop C W env rest fs).crashed⟩ := by
  have h1 : decryptOne C W (env file) fs file = some (fs, Msg.errDecrypt file) := by
    rw [decryptOne_of_long C W (env file) fs file e hfile hread hlen]
    simp only [saltSize, nonceSize, hnew, hfail]
    rfl
  refine ⟨h1, ?_⟩
  simp only [decryptLoop, h1]

/-- Witness of C5: the 44-byte "empty.txt.enc" made with "correct-horse" is
decrypted with "wrong-password": one line "Error decrypting", the file system
unchanged ("empty.txt.enc" still there, no "empty.txt"). -/
theorem auth_failure_nondestructive_witness :
    decryptOne sampleCrypto (asciiBytes "wrong-password") (decOk [])
        (encryptOne sampleCrypto (asciiBytes "correct-horse") (encOk sampleSalt sampleNonce)
          (singleFile "empty.txt" []) "empty.txt").1 "empty.txt.enc" =
      some ((encryptOne sampleCrypto (asciiBytes "correct-horse") (encOk sampleSalt sampleNonce)
          (singleFile "empty.txt" []) "empty.txt").1, Msg.errDecrypt "empty.txt.enc") ∧
    (encryptOne sampleCrypto (asciiBytes "correct-horse") (encOk sampleSalt sampleNonce)
        (singleFile "empty.txt" []) "empty.txt").1 "empty.txt" = none ∧
    ((encryptOne sampleCrypto (asciiBytes "correct-horse") (encOk sampleSalt sampleNonce)
        (singleFile "empty.txt" []) "empty.txt").1 "empty.txt.enc").map List.length = some 44 :=
  ⟨(auth_failure_nondestructive sampleCrypto (asciiBytes "wrong-password") (fun _ => decOk [])
      (encryptOne sampleCrypto (asciiBytes "correct-horse") (encOk sampleSalt sampleNonce)
        (singleFile "empty.txt" []) "empty.txt").1 "empty.txt.enc" []
      (envelope sampleCrypto (asciiBytes "correct-horse") sampleSalt.val sampleNonce.val [])
      (by decide) (by decide) rfl (by decide) (by decide)).1,
    by decide, by decide⟩

/-- C6. Encryption failure leaves the source untouched. For every file that
passes the test of line 110: if salt generation, AEAD construction, nonce
generation, reading the file, creating the `.enc` file, or writing salt, nonce
or ciphertext fails, then the body of the loop leaves the original file
exactly as it was (neither removed nor modified), the one line it prints for
the file is one of the eight error lines of these steps, and the original is
still as it was at the end of the loop over any list `files`; in every case
the loop goes on with the rest of the list; and the original changes only when
all three envelope writes succeeded, the `.enc` file then holding the complete
envelope. -/
theorem encrypt_failure_keeps_source (C : Crypto) (W : Bytes) (executableName : String)
    (env : String → EncEvents) (fs : FS) (file : String) (files rest : List String)
    (hsel : ¬ (file = executableName ∨ hasSuffix file ".enc" = true)) :
    (((env file).salt = none ∨
        (∃ s, (env file).salt = some s ∧ C.newAEAD (deriveKey C W s.val) = false) ∨
        (env file).nonce = none ∨ readFile fs (env file).readErr file = none ∨
        (env file).createErr = true ∨ (env file).writeSalt ≠ none ∨
        (env file).writeNonce ≠ none ∨ (env file).writeCiphertext ≠ none) →
      (encryptOne C W (env file) fs file).1 file = fs file ∧
      (encryptOne C W (env file) fs file).2 ∈
        [Msg.errSalt file, Msg.errAEAD file, Msg.errNonce file, Msg.errRead file,
          Msg.errCreate file, Msg.errWriteSalt file, Msg.errWriteNonce file,
          Msg.errWriteCiphertext file] ∧
      (encryptLoop C W executableName env files fs).fs file = fs file) ∧
    encryptLoop C W executableName env (file :: rest) fs =
      ⟨(encryptLoop C W executableName env rest (encryptOne C W (env file) fs file).1).fs,
        (encryptOne C W (env file) fs file).2 ::
          (encryptLoop C W executableName env rest (encryptOne C W (env file) fs file).1).log,
        (encryptLoop C W executableName env rest (encryptOne C W (env file) fs file).1).crashed⟩ ∧
    ((encryptOne C W (env file) fs file).1 file ≠ fs file →
      (env file).writeSalt = none ∧ (env file).writeNonce = none ∧
      (env file).writeCiphertext = none ∧
      ∃ s n P, (env file).salt = some s ∧ (env file).nonce = some n ∧ fs file = some P ∧
        (encryptOne C W (env file) fs file).1 (file ++ ".enc") =
          some (s.val ++ n.val ++ C.aeadSeal (deriveKey C W s.val) n.val P) ∧
        (encryptOne C W (env file) fs file).1 file = none) := by
  have hne : file ≠ file ++ ".enc" := fun h => enc_ne_self file h.symm
  have hs : hasSuffix file ".enc" = false := by
    cases h : hasSuffix file ".enc" with
    | false => rfl
    | true => exact absurd (Or.inr h) hsel
  refine ⟨fun hfail => ⟨(encryptOne_fail_keeps C W (env file) fs file hfail).1,
    (encryptOne_fail_keeps C W (env file) fs file hfail).2,
    encryptLoop_fail_keeps C W executableName env file hs fs hfail files fs rfl⟩, ?_,
    fun hch => ?_⟩
  · simp only [encryptLoop, if_neg hsel]
  · rcases encryptOne_outcome C W (env file) fs file with
      ⟨h, _⟩ | ⟨s, n, P, hs, hn, hP, _, _, _, h⟩
    · exact absurd (by rw [h]) hch
    · rcases h with ⟨e, _, h, _⟩ | ⟨h1, h2, h3, ⟨h, _⟩ | ⟨h, _⟩⟩
      · exact absurd (by rw [h, FS.set_other _ _ _ _ hne]) hch
      · exact absurd (by rw [h, FS.set_other _ _ _ _ hne]) hch
      · refine ⟨h1, h2, h3, s, n, P, hs, hn, hP, ?_, ?_⟩
        · rw [h, FS.set_other _ _ _ _ (enc_ne_self file), FS.set_same]; rfl
        · rw [h, FS.set_same]

/-- Witness of C6: creating "a.txt.enc" fails; "a.txt" keeps its three bytes,
the line printed is one of the error lines, and "a.txt" is unchanged at the end
of the loop over "a.txt" and "b.txt". -/
theorem encrypt_failure_keeps_source_witness :
    (encryptOne sampleCrypto (asciiBytes "pw") encCreateFails (singleFile "a.txt" [1, 2, 3])
        "a.txt").1 "a.txt" = singleFile "a.txt" [1, 2, 3] "a.txt" ∧
    (encryptOne sampleCrypto (asciiBytes "pw") encCreateFails (singleFile "a.txt" [1, 2, 3])
        "a.txt").2 ∈
      [Msg.errSalt "a.txt", Msg.errAEAD "a.txt", Msg.errNonce "a.txt", Msg.errRead "a.txt",
        Msg.errCreate "a.txt", Msg.errWriteSalt "a.txt", Msg.errWriteNonce "a.txt",
        Msg.errWriteCiphertext "a.txt"] ∧
    (encryptLoop sampleCrypto (asciiBytes "pw") "kerrious" (fun _ => encCreateFails)
        ["a.txt", "b.txt"] (singleFile "a.txt" [1, 2, 3])).fs "a.txt" =
      singleFile "a.txt" [1, 2, 3] "a.txt" :=
  (encrypt_failure_keeps_source sampleCrypto (asciiBytes "pw") "kerrious"
    (fun _ => encCreateFails) (singleFile "a.txt" [1, 2, 3]) "a.txt" ["a.txt", "b.txt"] []
    (by decide)).1 (Or.inr (Or.inr (Or.inr (Or.inr (Or.inl rfl)))))

/-- C7, counterexample. The ciphertext write for "a.txt" stops with an error
after two bytes: the body leaves the intact "a.txt" and an "a.txt.enc" of 30
bytes, a strict beginning of the 47-byte envelope, which is not removed and is
still there when `encryptFiles` returns. -/
theorem half_written_envelope_persists :
    (encryptOne sampleCrypto (asciiBytes "pw") encShortWrite (singleFile "a.txt" [1, 2, 3])
        "a.txt").2 = Msg.errWriteCiphertext "a.txt" ∧
    (encryptOne sampleCrypto (asciiBytes "pw") encShortWrite (singleFile "a.txt" [1, 2, 3])
        "a.txt").1 "a.txt" = some [1, 2, 3] ∧
    (encryptOne sampleCrypto (asciiBytes "pw") encShortWrite (singleFile "a.txt" [1, 2, 3])
        "a.txt").1 "a.txt.enc" =
      some ((envelope sampleCrypto (asciiBytes "pw") sampleSalt.val sampleNonce.val
        [1, 2, 3]).take 30) ∧
    (envelope sampleCrypto (asciiBytes "pw") sampleSalt.val sampleNonce.val [1, 2, 3]).length = 47 ∧
    (envelope sampleCrypto (asciiBytes "pw") sampleSalt.val sampleNonce.val [1, 2, 3]).take 30 ≠
      envelope sampleCrypto (asciiBytes "pw") sampleSalt.val sampleNonce.val [1, 2, 3] ∧
    (encryptFiles sampleCrypto (asciiBytes "pw") (some "/opt/kerrious")
        [⟨".", true, false⟩, ⟨"a.txt", false, false⟩] (fun _ => encShortWrite)
        (singleFile "a.txt" [1, 2, 3])).fs "a.txt.enc" =
      some ((envelope sampleCrypto (asciiBytes "pw") sampleSalt.val sampleNonce.val
        [1, 2, 3]).take 30) := by
  decide

/-- C7, amended. After the body of `encryptFiles` finishes with a file `p`,
in every outcome: no path other than `p` and `p ++ ".enc"` has changed, and
either both `p` and `p ++ ".enc"` are as before; or the original is intact and
`p ++ ".enc"` holds a beginning of the envelope salt ++ nonce ++ ciphertext
(the whole of it when only the removal failed); or the original is removed
and `p ++ ".enc"` holds the complete envelope. -/
theorem original_kept_until_envelope_complete (C : Crypto) (W : Bytes) (ev : EncEvents)
    (fs : FS) (p : String) :
    (∀ x, x ≠ p → x ≠ p ++ ".enc" → (encryptOne C W ev fs p).1 x = fs x) ∧
    (((encryptOne C W ev fs p).1 p = fs p ∧
        (encryptOne C W ev fs p).1 (p ++ ".enc") = fs (p ++ ".enc")) ∨
      (∃ s n P e, ev.salt = some s ∧ ev.nonce = some n ∧ fs p = some P ∧
        (encryptOne C W ev fs p).1 p = some P ∧
        (encryptOne C W ev fs p).1 (p ++ ".enc") = some e ∧
        e <+: s.val ++ n.val ++ C.aeadSeal (deriveKey C W s.val) n.val P ∧
        ((encryptOne C W ev fs p).2 = Msg.errDelete p →
          e = s.val ++ n.val ++ C.aeadSeal (deriveKey C W s.val) n.val P)) ∨
      (∃ s n P, ev.salt = some s ∧ ev.nonce = some n ∧ fs p = some P ∧
        (encryptOne C W ev fs p).1 p = none ∧
        (encryptOne C W ev fs p).1 (p ++ ".enc") =
          some (s.val ++ n.val ++ C.aeadSeal (deriveKey C W s.val) n.val P))) := by
  have hne : p ≠ p ++ ".enc" := fun h => enc_ne_self p h.symm
  refine ⟨fun x h1 h2 => encryptOne_frame C W ev fs p x h1 h2, ?_⟩
  rcases encryptOne_outcome C W ev fs p with ⟨h, _⟩ | ⟨s, n, P, hs, hn, hP, _, _, _, h⟩
  · exact Or.inl ⟨by rw [h], by rw [h]⟩
  · rcases h with ⟨e, he, h, hm⟩ | ⟨_, _, _, ⟨h, hm⟩ | ⟨h, _⟩⟩
    · refine Or.inr (Or.inl ⟨s, n, P, e, hs, hn, hP, ?_, ?_, he, fun hd => ?_⟩)
      · rw [h, FS.set_other _ _ _ _ hne, hP]
      · rw [h, FS.set_same]
      · rw [hd] at hm; simp at hm
    · refine Or.inr (Or.inl ⟨s, n, P, _, hs, hn, hP, ?_, ?_, List.prefix_refl _, fun _ => rfl⟩)
      · rw [h, FS.set_other _ _ _ _ hne, hP]
      · rw [h, FS.set_same]; rfl
    · refine Or.inr (Or.inr ⟨s, n, P, hs, hn, hP, ?_, ?_⟩)
      · rw [h, FS.set_same]
      · rw [h, FS.set_other _ _ _ _ (enc_ne_self p), FS.set_same]; rfl

/-- C8. Selection guard. For every executable path and every walk: each file
the loop of `encryptFiles` processes does not end in ".enc", has a last
element different from that of the executable path, and so is not the
executable path, neither as it stands nor below any directory; `decryptFiles`
runs its loop on the list its walk collects, and every path of that list ends
in ".enc". -/
theorem selection_guard (C : Crypto) (W : Bytes) (executablePath : String)
    (visitsE visitsD : List Visit) (envE : String → EncEvents) (envD : String → DecEvents)
    (fs : FS) :
    (∀ p ∈ (encryptFiles C W (some executablePath) visitsE envE fs).log.filterMap Msg.encFile,
      hasSuffix p ".enc" = false ∧ base p ≠ base executablePath ∧ p ≠ executablePath ∧
      ∀ dir : String, stripTrailingSlashes p.data ≠ [] → dir ++ "/" ++ p ≠ executablePath) ∧
    decryptFiles C W visitsD envD fs =
      ⟨(decryptLoop C W envD (decryptWalk visitsD).1 fs).fs,
        (decryptWalk visitsD).2 ++ (decryptLoop C W envD (decryptWalk visitsD).1 fs).log,
        (decryptLoop C W envD (decryptWalk visitsD).1 fs).crashed⟩ ∧
    (∀ p ∈ (decryptWalk visitsD).1, hasSuffix p ".enc" = true) := by
  refine ⟨fun p hp => ?_, rfl, fun p hp => ?_⟩
  · rw [encryptFiles_log] at hp
    have hp1 := (List.mem_filter.1 hp).1
    rw [encryptWalk_files] at hp1
    obtain ⟨v, hv, rfl⟩ := List.mem_map.1 hp1
    have hc := (List.mem_filter.1 hv).2
    simp only [Bool.and_eq_true, Bool.not_eq_true', bne_iff_ne, ne_eq] at hc
    obtain ⟨_, ⟨_, hb⟩, hs⟩ := hc
    refine ⟨hs, hb, fun h => hb (by rw [h]), fun dir hd h => hb ?_⟩
    rw [← h, base_join dir v.path hd]
  · rw [decryptWalk_files] at hp
    obtain ⟨v, hv, rfl⟩ := List.mem_map.1 hp
    have hc := (List.mem_filter.1 hv).2
    simp only [Bool.and_eq_true, Bool.not_eq_true'] at hc
    exact hc.2.2

/-- Witness of C8 on `toolTree`, the executable being "/home/u/tool": the one
file processed is "notes.txt". -/
theorem selection_guard_witness :
    (encryptFiles sampleCrypto (asciiBytes "pw") (some "/home/u/tool") toolTree
        (fun _ => encOk sampleSalt sampleNonce) toolFS).log.filterMap Msg.encFile =
      ["notes.txt"] ∧
    hasSuffix "notes.txt" ".enc" = false ∧ base "notes.txt" ≠ base "/home/u/tool" ∧
    (decryptWalk toolTree).1 = ["old.enc"] ∧ hasSuffix "old.enc" ".enc" = true :=
  ⟨by decide,
    ((selection_guard sampleCrypto (asciiBytes "pw") "/home/u/tool" toolTree toolTree
      (fun _ => encOk sampleSalt sampleNonce) (fun _ => decOk []) toolFS).1 "notes.txt"
      (by decide)).1,
    ((selection_guard sampleCrypto (asciiBytes "pw") "/home/u/tool" toolTree toolTree
      (fun _ => encOk sampleSalt sampleNonce) (fun _ => decOk []) toolFS).1 "notes.txt"
      (by decide)).2.1,
    by decide,
    (selection_guard sampleCrypto (asciiBytes "pw") "/home/u/tool" toolTree toolTree
      (fun _ => encOk sampleSalt sampleNonce) (fun _ => decOk []) toolFS).2.2 "old.enc"
      (by decide)⟩

/-- C10, counterexample. The program "/home/u/tool" runs in "/home/u", which
holds the regular file "sub/tool": this file is in a subdirectory, is not the
executable ("/home/u/sub/tool" is another path), does not end in ".enc", and
is not processed: it keeps its contents and no "sub/tool.enc" appears. -/
theorem namesake_in_subdirectory_skipped :
    (⟨"sub/tool", false, false⟩ : Visit) ∈ toolTree ∧
    hasSuffix "sub/tool" ".enc" = false ∧
    "sub/tool" ≠ "/home/u/tool" ∧
    "/home/u" ++ "/" ++ "sub/tool" ≠ "/home/u/tool" ∧
    "sub/tool" ∉ (encryptFiles sampleCrypto (asciiBytes "pw") (some "/home/u/tool") toolTree
        (fun _ => encOk sampleSalt sampleNonce) toolFS).log.filterMap Msg.encFile ∧
    (encryptFiles sampleCrypto (asciiBytes "pw") (some "/home/u/tool") toolTree
        (fun _ => encOk sampleSalt sampleNonce) toolFS).fs "sub/tool" = some [3, 4, 5] ∧
    (encryptFiles sampleCrypto (asciiBytes "pw") (some "/home/u/tool") toolTree
        (fun _ => encOk sampleSalt sampleNonce) toolFS).fs "sub/tool.enc" = none := by
  decide

/-- C10, amended. For every executable path and every walk, the list of
files `encryptFiles` processes is exactly, in the order of the walk, the
entries that carry no error, are not directories, whose last path element
differs from the last element of the executable path, and whose path does not
end in ".enc". -/
theorem encrypt_candidates (C : Crypto) (W : Bytes) (executablePath : String)
    (visits : List Visit) (env : String → EncEvents) (fs : FS) :
    (encryptFiles C W (some executablePath) visits env fs).log.filterMap Msg.encFile =
      (visits.filter (fun v => !v.err && (!v.isDir && base v.path != base executablePath &&
        !hasSuffix v.path ".enc"))).map Visit.path := by
  rw [encryptFiles_log, encryptWalk_files]
  apply List.filter_eq_self.2
  intro p hp
  obtain ⟨v, hv, rfl⟩ := List.mem_map.1 hp
  have hc := (List.mem_filter.1 hv).2
  simp only [Bool.and_eq_true, Bool.not_eq_true', bne_iff_ne, ne_eq] at hc
  obtain ⟨_, ⟨_, hb⟩, hs⟩ := hc
  have hne : v.path ≠ base executablePath := by
    intro h
    apply hb
    rw [h, base_base]
  simp [hne, hs]

end Kerrious47
